import Mathlib

/-!
Verification development for the include sorter (`include_sorter.py`).

The pure core of the program is shallowly embedded here:

* strings are modelled as `List Char` (`Str`); Python `str.strip`, `str.rstrip`,
  `str.lower`, lexicographic string comparison and `sorted` are modelled on that
  representation (ASCII fragment of Python's Unicode behaviour);
* filesystem paths (`pathlib.Path`) are modelled as their component lists
  (`FsPath`), with `name`, `stem`, `parent`, `as_posix` translated from the
  documented `pathlib` semantics (forward-slash paths);
* the header index (a Python dict from filename to candidate paths) is an
  association list; `dict.get` returning `None` and an empty candidate list are
  both modelled as the empty list, exactly matching the `if not candidates`
  truthiness test in the source;
* file bytes are modelled as `List Nat`; UTF-8 decoding/encoding is modelled
  byte-per-char (faithful for ASCII content), with BOM handling
  (`utf-8-sig`) and universal-newline translation modelled explicitly.

Every definition follows the corresponding source function of
`src/include_sorter.py`; the few places where the source could raise a Python
exception that is provably unreachable are marked in comments.
-/

/-! ### Python string primitives -/

/-- Strings are modelled as lists of characters. -/
abbrev Str := List Char

/-- Convert a Lean string literal into the model representation. -/
def str (s : String) : Str := s.data

/-- Whitespace characters recognised by Python's `str.strip` / `\s`
(ASCII fragment). -/
def pySpace (c : Char) : Bool :=
  c = ' ' || c = '\t' || c = '\n' || c = '\r' || c = '\x0b' || c = '\x0c'

/-- Python `str.strip()`: drop leading and trailing whitespace. -/
def pyStrip (s : Str) : Str :=
  ((s.dropWhile pySpace).reverse.dropWhile pySpace).reverse

/-- Python `str.rstrip()`: drop trailing whitespace. -/
def rstrip (s : Str) : Str := (s.reverse.dropWhile pySpace).reverse

/-- Python `str.lower()` (ASCII fragment). -/
def lowerStr (s : Str) : Str := s.map Char.toLower

/-- Python string comparison `a <= b` (lexicographic on code points),
as used by `sorted`. -/
def strLe : Str → Str → Bool
  | [], _ => true
  | _ :: _, [] => false
  | a :: as, b :: bs => if a < b then true else if b < a then false else strLe as bs

/-- Python `sorted` on a list of strings: the stable sort by `strLe`
(Python's sort is stable, and a stable sort by a total transitive comparison
is unique, so the structurally recursive stable insertion sort models it
exactly). -/
def sortStr (l : List Str) : List Str := l.insertionSort (fun a b => strLe a b = true)

/-! ### Paths (`pathlib.Path`, forward-slash form) -/

/-- A filesystem path, as its list of components (`Path.parts`). -/
structure FsPath where
  parts : List Str
deriving DecidableEq, Inhabited, Repr

/-- `Path.name`: the final path component (empty for an empty path). -/
def FsPath.name (p : FsPath) : Str := p.parts.getLastD []

/-- `Path.parent`: drop the final component. -/
def FsPath.parent (p : FsPath) : FsPath := ⟨p.parts.dropLast⟩

/-- `Path.as_posix()`: components joined by forward slashes. -/
def FsPath.asPosix (p : FsPath) : Str := List.intercalate (str "/") p.parts

/-- Index of the last occurrence of a dot in a name (Python `str.rfind`). -/
def lastDot (s : Str) : Option Nat :=
  match s.reverse.findIdx? (fun c => c = '.') with
  | some j => some (s.length - 1 - j)
  | none => none

/-- `PurePath.stem` of a file name: the name with its final suffix removed;
a dot at position `0` or at the very end does not start a suffix. -/
def pyStem (nm : Str) : Str :=
  match lastDot nm with
  | some i => if 0 < i ∧ i < nm.length - 1 then nm.take i else nm
  | none => nm

/-- Split a string at a separator character, keeping empty fields. -/
def splitChar (sep : Char) : Str → List Str
  | [] => [[]]
  | c :: rest =>
    let r := splitChar sep rest
    if c = sep then [] :: r
    else
      match r with
      | [] => [[c]]
      | h :: t => (c :: h) :: t

/-- `Path(s).parts` for a textual reference: split at `/`, dropping empty
components and `.` components (as `pathlib` normalisation does). -/
def pathParts (s : Str) : List Str :=
  (splitChar '/' s).filter (fun p => !(p.isEmpty || p == str "."))

/-- `Path(s).name` for a textual reference. -/
def pathName (s : Str) : Str := (pathParts s).getLastD []

/-! ### The header index -/

/-- The header index `header_map`: filename to candidate paths.  A missing key
(`dict.get` giving `None`) and an empty list are identified, exactly as the
source's `if not candidates:` truthiness test does. -/
abbrev HeaderMap := List (Str × List FsPath)

/-- Candidate lookup, `header_map.get(filename)`. -/
def getCands (hm : HeaderMap) (k : Str) : List FsPath :=
  (List.lookup k hm).getD []

/-! ### `get_include_content`: the extraction pattern -/

/-- The include token `#include`. -/
def tokenInclude : Str := str "#include"

/-- Attempt the pattern `#include\s+["<]([^">]+)[">]` at the start of `s`.
Since the character class `[^">]+` is disjoint from the closers, the greedy
regex semantics reduce to: the token, one or more whitespace characters, an
opening `"` or `<`, a non-empty run of characters other than `"` and `>`,
then a following `"` or `>` must exist. -/
def matchIncludeAt (s : Str) : Option Str :=
  if tokenInclude.isPrefixOf s then
    let rest := s.drop tokenInclude.length
    let ws := rest.takeWhile pySpace
    let rest2 := rest.dropWhile pySpace
    if ws.isEmpty then none
    else
      match rest2 with
      | [] => none
      | c :: rest3 =>
        if c = '"' || c = '<' then
          let content := rest3.takeWhile (fun d => !(d = '"' || d = '>'))
          let rest4 := rest3.dropWhile (fun d => !(d = '"' || d = '>'))
          if content.isEmpty then none
          else if rest4.isEmpty then none else some content
        else none
  else none

/-- `get_include_content(line)`: `re.search` scans the line left to right for
the first position where the pattern matches, returning the captured group. -/
def get_include_content : Str → Option Str
  | [] => none
  | c :: rest =>
    match matchIncludeAt (c :: rest) with
    | some r => some r
    | none => get_include_content rest

/-! ### The resolver -/

/-- `include_string.replace("\\", "/")`. -/
def normSlash (s : Str) : Str := s.map (fun c => if c = '\\' then '/' else c)

/-- The suffix test of `find_exact_match`:
`full_path.as_posix().endswith(clean_include)`. -/
def suffMatch (include_string : Str) (p : FsPath) : Bool :=
  (normSlash include_string).isSuffixOf p.asPosix

/-- `find_exact_match(candidates, include_string)`: the first candidate whose
forward-slash path ends with the separator-normalised reference. -/
def find_exact_match (cands : List FsPath) (include_string : Str) : Option FsPath :=
  cands.find? (suffMatch include_string)

/-- Length of the common leading segment of two component lists (the score
loop of `get_nearest_neighbor`, which stops at the first mismatch). -/
def commonPrefixLen : List Str → List Str → Nat
  | a :: as, b :: bs => if a = b then commonPrefixLen as bs + 1 else 0
  | _, _ => 0

/-- The nearest-neighbour score of a candidate against the editing file:
common leading components of the two parent directories. -/
def nnScore (target c : FsPath) : Nat :=
  commonPrefixLen target.parent.parts c.parent.parts

/-- The candidate score as the Python `int` it is compared as. -/
def nnScoreI (curParts : List Str) (c : FsPath) : Int :=
  (commonPrefixLen curParts c.parent.parts : Nat)

/-- The accumulator loop of `get_nearest_neighbor`; `best_score` starts
at `-1`, and a candidate replaces the best exactly when its score is
strictly greater. -/
def gnnAux (curParts : List Str) : List FsPath → Option FsPath → Int → Option FsPath
  | [], best, _ => best
  | c :: rest, best, bestScore =>
    if bestScore < nnScoreI curParts c then gnnAux curParts rest (some c) (nnScoreI curParts c)
    else gnnAux curParts rest best bestScore

/-- `get_nearest_neighbor(current_file, candidates)`. -/
def get_nearest_neighbor (cur : FsPath) (cands : List FsPath) : Option FsPath :=
  gnnAux cur.parent.parts cands none (-1)

/-- `get_module_name(path)`: find the first case-insensitive `source`
component and return the (original-case) component following it. -/
def get_module_name (p : FsPath) : Option Str :=
  match (p.parts.map lowerStr).findIdx? (fun s => s == str "source") with
  | some idx => if idx + 1 < p.parts.length then some (p.parts.getD (idx + 1) []) else none
  | none => none

/-- The resolution chain of `sort_single_file` (lines 259-267 of the source):
no candidate gives no resolution; a single candidate is returned outright;
otherwise exact suffix match, then the nearest-neighbour heuristic. -/
def resolve (target : FsPath) (cands : List FsPath) (content : Str) : Option FsPath :=
  match cands with
  | [] => none
  | [c] => some c
  | _ :: _ :: _ =>
    match find_exact_match cands content with
    | some p => some p
    | none => get_nearest_neighbor target cands

/-! ### The classifier -/

/-- The six classification buckets of `sort_single_file`.  The two keyed
groups are insertion-ordered association lists, as Python dicts are. -/
structure Buckets where
  main_header : List Str := []
  same_module : List Str := []
  other_module : List (Str × List Str) := []
  plugins : List (Str × List Str) := []
  engine : List Str := []
  stl : List Str := []
deriving DecidableEq, Inhabited, Repr

/-- Append a value to the list stored under a key, creating the key at the
end on first use (Python `if k not in d: d[k] = []` followed by append). -/
def dictAppend : List (Str × List Str) → Str → Str → List (Str × List Str)
  | [], k, v => [(k, [v])]
  | (k2, vs) :: rest, k, v =>
    if k2 = k then (k2, vs ++ [v]) :: rest else (k2, vs) :: dictAppend rest k v

/-- The plugin key: the component following the first case-insensitive
`plugins` component, or `Unknown` when nothing follows (the bare
`except` of the source). -/
def pluginKey (p : FsPath) : Str :=
  match (p.parts.map lowerStr).findIdx? (fun s => s == str "plugins") with
  | some i => p.parts.getD (i + 1) (str "Unknown")
  | none => str "Unknown"

/-- Python truthiness test
`current_mod_name and other_mod_name and current_mod_name.lower() == other_mod_name.lower()`:
both present, both non-empty, equal after lowering. -/
def truthyEqMod : Option Str → Option Str → Bool
  | some a, some b => !a.isEmpty && !b.isEmpty && lowerStr a == lowerStr b
  | _, _ => false

/-- The classification chain for a resolved include (lines 269-288 of the
source): main header, engine, same module, plugin, other module —
first match wins. -/
def classifyResolved (target : FsPath) (b : Buckets) (line : Str) (p : FsPath) : Buckets :=
  if pyStem target.name = pyStem p.name then
    { b with main_header := b.main_header ++ [line] }
  else if (str "Engine") ∈ p.parts ∨ (str "UnrealEngine") ∈ p.parts then
    { b with engine := b.engine ++ [line] }
  else if truthyEqMod (get_module_name target) (get_module_name p) then
    { b with same_module := b.same_module ++ [line] }
  else if (str "Plugins") ∈ p.parts then
    { b with plugins := dictAppend b.plugins (pluginKey p) line }
  else
    { b with other_module := dictAppend b.other_module ((get_module_name p).getD (str "Other")) line }

/-- Process one collected include line (the body of the sorting loop):
unparseable lines are skipped (`if not content: continue`); lines with no
candidate go to the external bucket; otherwise the resolved path is
classified.  The final `none` branch is unreachable —
`get_nearest_neighbor` never returns `none` on a non-empty candidate list
(theorem `gnn_isSome_of_ne_nil`); at that point the Python source would
have raised on `None`. -/
def classifyLine (target : FsPath) (hm : HeaderMap) (b : Buckets) (line : Str) : Buckets :=
  match get_include_content line with
  | none => b
  | some content =>
    if (getCands hm (pathName content)).isEmpty then { b with stl := b.stl ++ [line] }
    else
      match resolve target (getCands hm (pathName content)) content with
      | some p => classifyResolved target b line p
      | none => b

/-! ### The extraction state machine -/

/-- State of the include-extraction loop (lines 201-235 of the source). -/
structure SplitState where
  include_lines : List Str := []
  other_top : List Str := []
  other_bottom : List Str := []
  inside : Bool := false
  finished : Bool := false
deriving DecidableEq, Inhabited, Repr

/-- A line whose stripped text starts with the include token. -/
def isInclLine (line : Str) : Bool := tokenInclude.isPrefixOf (pyStrip line)

/-- One step of the extraction loop.  Branch order is exactly the source's:
an include-looking line is always collected (Case A), even after the block
has already finished; blank lines while collecting are dropped; the first
other line while collecting ends the block; afterwards lines go to the
bottom; lines before any include go to the top. -/
def splitStep (st : SplitState) (line : Str) : SplitState :=
  if tokenInclude.isPrefixOf (pyStrip line) then
    { st with include_lines := st.include_lines ++ [line], inside := true }
  else if st.inside then
    if (pyStrip line).isEmpty then st
    else { st with finished := true, inside := false, other_bottom := st.other_bottom ++ [line] }
  else if st.finished then
    { st with other_bottom := st.other_bottom ++ [line] }
  else
    { st with other_top := st.other_top ++ [line] }

/-- The whole extraction loop over the file's lines. -/
def splitIncludes (lines : List Str) : SplitState :=
  lines.foldl splitStep {}

/-! ### Reconstruction -/

/-- Trim trailing blank (whitespace-only) lines, as the `while ... pop()`
loop over `other_lines_top` does. -/
def dropTrailingBlank (ls : List Str) : List Str :=
  (ls.reverse.dropWhile (fun l => (pyStrip l).isEmpty)).reverse

/-- Trim leading blank lines, as the `while ... pop(0)` loop over
`other_lines_bottom` does. -/
def dropLeadingBlank (ls : List Str) : List Str :=
  ls.dropWhile (fun l => (pyStrip l).isEmpty)

/-- Emit a keyed group dict: keys in sorted order, each value list sorted,
one blank line after each group.  Keys are unique by construction of
`dictAppend`, so sorting the pairs by key agrees with
`for k in sorted(d.keys()): ... d[k]`. -/
def emitDict (d : List (Str × List Str)) : List Str :=
  (d.insertionSort (fun a b => strLe a.1 b.1 = true)).foldr
    (fun kv acc => sortStr kv.2 ++ [[]] ++ acc) []

/-- Emit all buckets in source order: main header verbatim, then the sorted
groups, each followed by one blank line (lines 301-324 of the source). -/
def emitGroups (b : Buckets) : List Str :=
  (if b.main_header.isEmpty then [] else b.main_header ++ [[]]) ++
  (if b.same_module.isEmpty then [] else sortStr b.same_module ++ [[]]) ++
  emitDict b.other_module ++
  emitDict b.plugins ++
  (if b.engine.isEmpty then [] else sortStr b.engine ++ [[]]) ++
  (if b.stl.isEmpty then [] else sortStr b.stl ++ [[]])

/-- `new_content`: trimmed top block, one enforced blank line, the emitted
groups, then the trimmed bottom block. -/
def reconstruct (top bottom : List Str) (b : Buckets) : List Str :=
  dropTrailingBlank top ++ [[]] ++ emitGroups b ++ dropLeadingBlank bottom

/-- Replacement for a maximal run of `n` newlines under
`re.sub(r'\n{3,}', '\n\n', text)`: three or more become exactly two,
shorter runs are kept. -/
def flushNL (n : Nat) : Str := if 3 ≤ n then [ '\n', '\n'] else List.replicate n '\n'

/-- Worker for the newline-run collapse: `n` counts the newlines of the
current run; a non-newline character (or the end) flushes the run through
`flushNL`. -/
def collapseAux : Str → Nat → Str
  | [], n => flushNL n
  | c :: rest, n =>
    if c = '\n' then collapseAux rest (n + 1)
    else flushNL n ++ c :: collapseAux rest 0

/-- `re.sub(r'\n{3,}', '\n\n', text)`: every maximal run of three or more
newlines becomes exactly two; shorter runs are kept. -/
def collapseNL (s : Str) : Str := collapseAux s 0

/-- `"\n".join(new_content)`. -/
def joinNL : List Str → Str
  | [] => []
  | [l] => l
  | l :: l2 :: ls => l ++ '\n' :: joinNL (l2 :: ls)

/-- The write-back text (lines 334-336 of the source): join, collapse
newline runs, strip trailing whitespace, append one newline. -/
def finalText (nc : List Str) : Str := rstrip (collapseNL (joinNL nc)) ++ [ '\n']

/-- The pure core of `sort_single_file` on a file already split into lines:
`none` models the early return when no include line was collected. -/
def sortLines (target : FsPath) (hm : HeaderMap) (lines : List Str) : Option Str :=
  let st := splitIncludes lines
  if st.include_lines.isEmpty then none
  else some (finalText (reconstruct st.other_top st.other_bottom
    (st.include_lines.foldl (classifyLine target hm) {})))

/-! ### Byte level: encoding and newline detection -/

/-- The UTF-8 byte-order mark. -/
def bomBytes : List Nat := [0xEF, 0xBB, 0xBF]

/-- `raw_bytes.startswith(b'\xef\xbb\xbf')`. -/
def hasBom (bs : List Nat) : Bool := bomBytes.isPrefixOf bs

/-- `b'\r\n' in raw_bytes`. -/
def hasCRLF : List Nat → Bool
  | [] => false
  | [_] => false
  | a :: b :: rest => (a = 13 && b = 10) || hasCRLF (b :: rest)

/-- Universal-newline translation done by text-mode reading:
CRLF and lone CR both become LF. -/
def univNL : Str → Str
  | [] => []
  | c :: rest =>
    if c = '\r' then
      match rest with
      | [] => [ '\n']
      | d :: rest2 => if d = '\n' then '\n' :: univNL rest2 else '\n' :: univNL (d :: rest2)
    else c :: univNL rest

/-- Worker for `splitlines`: `acc` holds the reversed current line. -/
def splitlinesAux : Str → Str → List Str
  | [], acc => [acc.reverse]
  | c :: rest, acc =>
    if c = '\n' then
      match rest with
      | [] => [acc.reverse]
      | d :: rest2 => acc.reverse :: splitlinesAux (d :: rest2) []
    else splitlinesAux rest (c :: acc)

/-- `str.splitlines()` on text containing only LF line boundaries:
split at newlines, with no trailing empty line for a trailing newline
(and no line at all for empty text). -/
def splitlinesChar : Str → List Str
  | [] => []
  | c :: rest => splitlinesAux (c :: rest) []

/-- Text-mode writing with `newline=original_newline`: each LF is written
as the chosen line ending; other characters are written as their code
(faithful for ASCII content). -/
def encodeText (crlf : Bool) (t : Str) : List Nat :=
  t.foldr (fun c acc => (if c = '\n' then (if crlf then [13, 10] else [10]) else [c.toNat]) ++ acc) []

/-- `sort_single_file` from raw bytes to raw bytes: detect BOM and line
endings, decode (stripping the BOM for `utf-8-sig`), translate newlines,
split into lines, run the core, and re-encode with the detected BOM and
line-ending convention.  `none` models the skip when no includes exist. -/
def sortFileBytes (target : FsPath) (hm : HeaderMap) (bs : List Nat) : Option (List Nat) :=
  let bom := hasBom bs
  let body := if bom then bs.drop 3 else bs
  let text := univNL (body.map Char.ofNat)
  match sortLines target hm (splitlinesChar text) with
  | none => none
  | some ft => some ((if bom then bomBytes else []) ++ encodeText (hasCRLF bs) ft)

/-- Search for a contiguous character sequence (used to state infix
properties of the output text executably). -/
def hasSeq (pat : Str) : Str → Bool
  | [] => pat.isEmpty
  | c :: rest => pat.isPrefixOf (c :: rest) || hasSeq pat rest

/-! ### The nearest-neighbour heuristic: specification -/

theorem nnScoreI_nonneg (parts : List Str) (c : FsPath) : 0 ≤ nnScoreI parts c :=
  Int.natCast_nonneg _

theorem gnnAux_all_le (parts : List Str) :
    ∀ (cands : List FsPath) (best : Option FsPath) (bs : Int),
      (∀ c, c ∈ cands → nnScoreI parts c ≤ bs) →
      gnnAux parts cands best bs = best := by
  intro cands
  induction cands with
  | nil => intro best bs _; rfl
  | cons c rest ih =>
    intro best bs h
    have hc := h c (List.mem_cons_self _ _)
    simp only [gnnAux]
    rw [if_neg (by omega)]
    exact ih best bs (fun d hd => h d (List.mem_cons_of_mem _ hd))

theorem gnnAux_spec (parts : List Str) :
    ∀ (cands : List FsPath) (best : Option FsPath) (bs : Int),
      (∃ c, c ∈ cands ∧ bs < nnScoreI parts c) →
      ∃ l₁ c l₂, cands = l₁ ++ c :: l₂ ∧
        gnnAux parts cands best bs = some c ∧ bs < nnScoreI parts c ∧
        (∀ d, d ∈ cands → nnScoreI parts d ≤ nnScoreI parts c) ∧
        (∀ d, d ∈ l₁ → nnScoreI parts d ≤ bs ∨ nnScoreI parts d < nnScoreI parts c) := by
  intro cands
  induction cands with
  | nil =>
    intro best bs h
    obtain ⟨c, hc, _⟩ := h
    exact absurd hc (List.not_mem_nil c)
  | cons c0 rest ih =>
    intro best bs h
    by_cases hlt : bs < nnScoreI parts c0
    · by_cases hrest : ∃ d, d ∈ rest ∧ nnScoreI parts c0 < nnScoreI parts d
      · obtain ⟨l₁, c, l₂, heq, hrun, hgt, hmax, hfirst⟩ :=
          ih (some c0) (nnScoreI parts c0) hrest
        refine ⟨c0 :: l₁, c, l₂, by rw [heq, List.cons_append], ?_, by omega, ?_, ?_⟩
        · simp only [gnnAux, if_pos hlt]; exact hrun
        · intro d hd
          rcases List.mem_cons.mp hd with h1 | h2
          · subst h1; omega
          · exact hmax d h2
        · intro d hd
          rcases List.mem_cons.mp hd with h1 | h2
          · subst h1; right; omega
          · right
            rcases hfirst d h2 with h3 | h3 <;> omega
      · push_neg at hrest
        refine ⟨[], c0, rest, rfl, ?_, hlt, ?_, by intro d hd; cases hd⟩
        · simp only [gnnAux, if_pos hlt]
          exact gnnAux_all_le parts rest (some c0) (nnScoreI parts c0)
            (fun d hd => hrest d hd)
        · intro d hd
          rcases List.mem_cons.mp hd with h1 | h2
          · subst h1; exact le_refl _
          · exact hrest d h2
    · have hrest : ∃ d, d ∈ rest ∧ bs < nnScoreI parts d := by
        obtain ⟨d, hd, hgt⟩ := h
        rcases List.mem_cons.mp hd with h1 | h2
        · subst h1; exact absurd hgt hlt
        · exact ⟨d, h2, hgt⟩
      obtain ⟨l₁, c, l₂, heq, hrun, hgt, hmax, hfirst⟩ := ih best bs hrest
      refine ⟨c0 :: l₁, c, l₂, by rw [heq, List.cons_append], ?_, hgt, ?_, ?_⟩
      · simp only [gnnAux, if_neg hlt]; exact hrun
      · intro d hd
        rcases List.mem_cons.mp hd with h1 | h2
        · subst h1; omega
        · exact hmax d h2
      · intro d hd
        rcases List.mem_cons.mp hd with h1 | h2
        · subst h1; left; omega
        · exact hfirst d h2

theorem gnnAux_some_isSome (parts : List Str) :
    ∀ (cands : List FsPath) (c : FsPath) (bs : Int),
      (gnnAux parts cands (some c) bs).isSome = true := by
  intro cands
  induction cands with
  | nil => intro c bs; rfl
  | cons c0 rest ih =>
    intro c bs
    simp only [gnnAux]
    split
    · exact ih c0 _
    · exact ih c bs

theorem gnn_isSome_of_ne_nil (cur : FsPath) (cands : List FsPath) (h : cands ≠ []) :
    (get_nearest_neighbor cur cands).isSome = true := by
  match cands, h with
  | c0 :: rest, _ =>
    simp only [get_nearest_neighbor, gnnAux]
    split
    · exact gnnAux_some_isSome _ rest c0 _
    · exfalso
      have h2 := nnScoreI_nonneg cur.parent.parts c0
      omega

/-! ### Generic list helper lemmas -/

theorem find?_eq_first_unique {α : Type} (p : α → Bool) :
    ∀ (l : List α) (x : α), x ∈ l → p x = true →
      (∀ y, y ∈ l → p y = true → y = x) → l.find? p = some x := by
  intro l
  induction l with
  | nil => intro x hx _ _; cases hx
  | cons a rest ih =>
    intro x hx hpx huniq
    by_cases hpa : p a = true
    · have hax : a = x := huniq a (List.mem_cons_self _ _) hpa
      subst hax
      exact List.find?_cons_of_pos _ hpa
    · have hpa2 : p a = false := by rwa [Bool.not_eq_true] at hpa
      rw [List.find?_cons_of_neg _ (by simp [hpa2])]
      have hx2 : x ∈ rest := by
        rcases List.mem_cons.mp hx with h1 | h2
        · subst h1; exact absurd hpx hpa
        · exact h2
      exact ih x hx2 hpx (fun y hy hpy => huniq y (List.mem_cons_of_mem _ hy) hpy)

/-! ### Claim C9: resolution is total on non-empty candidate lists -/

/-- C9: for every non-empty candidate list and every editing-file path, the
resolution procedure of `sort_single_file` always yields exactly one chosen
path; in particular `get_nearest_neighbor` returns a non-absent candidate
whenever the candidate list is non-empty (even when every common-prefix
score is zero, since the initial best score is `-1`), so the chain never
produces the `None` that would make the subsequent attribute accesses
raise. -/
theorem resolution_total_on_nonempty (target : FsPath) (cands : List FsPath) (content : Str)
    (h : cands ≠ []) :
    (get_nearest_neighbor target cands).isSome = true ∧
    (resolve target cands content).isSome = true := by
  refine ⟨gnn_isSome_of_ne_nil target cands h, ?_⟩
  match cands, h with
  | [c], _ => rfl
  | c1 :: c2 :: rest, _ =>
    cases hf : find_exact_match (c1 :: c2 :: rest) content with
    | some p => simp only [resolve, hf, Option.isSome_some]
    | none =>
      simp only [resolve, hf]
      exact gnn_isSome_of_ne_nil target (c1 :: c2 :: rest) (List.cons_ne_nil _ _)

/-- Witness for C9 at a concrete editing file, candidate list and reference. -/
theorem resolution_total_on_nonempty_witness :
    (get_nearest_neighbor ⟨[str "A", str "f.cpp"]⟩ [⟨[str "B", str "f.h"]⟩]).isSome = true ∧
    (resolve ⟨[str "A", str "f.cpp"]⟩ [⟨[str "B", str "f.h"]⟩] (str "f.h")).isSome = true :=
  resolution_total_on_nonempty ⟨[str "A", str "f.cpp"]⟩ [⟨[str "B", str "f.h"]⟩] (str "f.h")
    (List.cons_ne_nil _ _)

/-! ### Claim C1: the three-case resolver contract -/

/-- C1: the resolver follows the three-case contract.  With exactly one
candidate in the index, that candidate is returned regardless of the
reference text.  With several candidates, the (unique) candidate whose
forward-slash full path ends with the separator-normalised reference is
chosen.  With several candidates and no exact suffix match, a candidate
whose parent directory shares the longest common leading component
sequence with the editing file's directory is chosen, and every earlier
candidate in list order scores strictly lower (first-encountered
tie-break). -/
theorem resolver_three_case_contract (target : FsPath) (hm : HeaderMap) (content : Str) :
    (∀ c : FsPath, getCands hm (pathName content) = [c] →
        resolve target (getCands hm (pathName content)) content = some c) ∧
    (2 ≤ (getCands hm (pathName content)).length →
      ∀ p : FsPath, p ∈ getCands hm (pathName content) → suffMatch content p = true →
        (∀ q, q ∈ getCands hm (pathName content) → suffMatch content q = true → q = p) →
        resolve target (getCands hm (pathName content)) content = some p) ∧
    (2 ≤ (getCands hm (pathName content)).length →
      find_exact_match (getCands hm (pathName content)) content = none →
      ∃ l₁ c l₂, getCands hm (pathName content) = l₁ ++ c :: l₂ ∧
        resolve target (getCands hm (pathName content)) content = some c ∧
        (∀ d, d ∈ getCands hm (pathName content) → nnScore target d ≤ nnScore target c) ∧
        (∀ d, d ∈ l₁ → nnScore target d < nnScore target c)) := by
  refine ⟨?_, ?_, ?_⟩
  · intro c h
    rw [h]
    rfl
  · intro hlen p hp hsm huniq
    cases hc : getCands hm (pathName content) with
    | nil => rw [hc] at hlen; simp at hlen
    | cons c1 tl =>
      cases tl with
      | nil => rw [hc] at hlen; simp at hlen
      | cons c2 rest =>
        rw [hc] at hp huniq
        have hfind : find_exact_match (c1 :: c2 :: rest) content = some p :=
          find?_eq_first_unique _ _ p hp hsm huniq
        simp only [resolve, hfind]
  · intro hlen hnone
    cases hc : getCands hm (pathName content) with
    | nil => rw [hc] at hlen; simp at hlen
    | cons c1 tl =>
      cases tl with
      | nil => rw [hc] at hlen; simp at hlen
      | cons c2 rest =>
        rw [hc] at hnone
        have hex : ∃ d, d ∈ c1 :: c2 :: rest ∧ (-1 : Int) < nnScoreI target.parent.parts d :=
          ⟨c1, List.mem_cons_self _ _, by
            have := nnScoreI_nonneg target.parent.parts c1; omega⟩
        obtain ⟨l₁, c, l₂, heq, hrun, _, hmax, hfirst⟩ :=
          gnnAux_spec target.parent.parts (c1 :: c2 :: rest) none (-1) hex
        refine ⟨l₁, c, l₂, heq, ?_, ?_, ?_⟩
        · simp only [resolve, hnone]
          exact hrun
        · intro d hd
          have h2 := hmax d hd
          simp only [nnScoreI, nnScore] at h2 ⊢
          omega
        · intro d hd
          rcases hfirst d hd with h1 | h1
          · exfalso
            have := nnScoreI_nonneg target.parent.parts d
            omega
          · simp only [nnScoreI, nnScore] at h1 ⊢
            omega

/-- Witness for C1: a two-candidate index with no suffix match, resolved by
the nearest-neighbour heuristic. -/
theorem resolver_three_case_contract_witness :
    ∃ l₁ c l₂,
      getCands [(str "f.h", [⟨[str "X", str "A", str "f.h"]⟩, ⟨[str "P", str "B", str "f.h"]⟩])]
          (pathName (str "nomatch/f.h")) = l₁ ++ c :: l₂ ∧
      resolve ⟨[str "P", str "C", str "t.cpp"]⟩
          (getCands [(str "f.h", [⟨[str "X", str "A", str "f.h"]⟩, ⟨[str "P", str "B", str "f.h"]⟩])]
            (pathName (str "nomatch/f.h")))
          (str "nomatch/f.h") = some c ∧
      (∀ d, d ∈ getCands [(str "f.h", [⟨[str "X", str "A", str "f.h"]⟩, ⟨[str "P", str "B", str "f.h"]⟩])]
            (pathName (str "nomatch/f.h")) →
          nnScore ⟨[str "P", str "C", str "t.cpp"]⟩ d ≤ nnScore ⟨[str "P", str "C", str "t.cpp"]⟩ c) ∧
      (∀ d, d ∈ l₁ → nnScore ⟨[str "P", str "C", str "t.cpp"]⟩ d < nnScore ⟨[str "P", str "C", str "t.cpp"]⟩ c) :=
  (resolver_three_case_contract ⟨[str "P", str "C", str "t.cpp"]⟩
      [(str "f.h", [⟨[str "X", str "A", str "f.h"]⟩, ⟨[str "P", str "B", str "f.h"]⟩])]
      (str "nomatch/f.h")).2.2 (by decide) (by decide)

/-! ### Claim C2: main-header precedence in the classifier -/

/-- C2: an include whose resolved path has the same file stem as the editing
file is put in the MainHeader bucket, with no assumption on the resolved
path's other properties — the stem test is the first branch of the chain, so
it takes precedence over the Engine, SameModule and Plugins rules even when
the same path would also match them. -/
theorem classifier_main_header_precedence (target : FsPath) (hm : HeaderMap) (b : Buckets)
    (line content : Str) (p : FsPath)
    (h1 : get_include_content line = some content)
    (h2 : resolve target (getCands hm (pathName content)) content = some p)
    (h3 : pyStem target.name = pyStem p.name) :
    classifyLine target hm b line = { b with main_header := b.main_header ++ [line] } := by
  have hne : (getCands hm (pathName content)).isEmpty = false := by
    cases hc : getCands hm (pathName content) with
    | nil => rw [hc] at h2; exact absurd h2 (by simp [resolve])
    | cons a l => rfl
  simp only [classifyLine, h1, hne, Bool.false_eq_true, if_false, h2]
  unfold classifyResolved
  rw [if_pos h3]

/-- Witness for C2: the resolved path lies in an `Engine` tree and in the
same module, yet the include still lands in the main-header bucket. -/
theorem classifier_main_header_precedence_witness :
    classifyLine ⟨[str "UnrealEngine", str "Engine", str "Source", str "Mod", str "Foo.cpp"]⟩
        [(str "Foo.h", [⟨[str "UnrealEngine", str "Engine", str "Source", str "Mod", str "Foo.h"]⟩])]
        {} (str "#include \"Foo.h\"")
      = { main_header := [str "#include \"Foo.h\""] } :=
  classifier_main_header_precedence
    ⟨[str "UnrealEngine", str "Engine", str "Source", str "Mod", str "Foo.cpp"]⟩
    [(str "Foo.h", [⟨[str "UnrealEngine", str "Engine", str "Source", str "Mod", str "Foo.h"]⟩])]
    {} (str "#include \"Foo.h\"") (str "Foo.h")
    ⟨[str "UnrealEngine", str "Engine", str "Source", str "Mod", str "Foo.h"]⟩
    (by decide) (by decide) (by decide)

/-! ### Claim C10: unparseable include-looking lines are silently dropped -/

/-- C10: a line whose stripped text starts with the include token but whose
reference the extraction pattern cannot parse is collected into the include
block by the extraction loop, yet the classification loop assigns it to no
bucket (`if not content: continue`), leaving the classifier state unchanged
— so the reconstruction, which emits only bucket contents, silently deletes
the line from the rewritten file. -/
theorem unparsable_include_collected_and_unbucketed (st : SplitState) (target : FsPath)
    (hm : HeaderMap) (b : Buckets) (line : Str)
    (h1 : isInclLine line = true) (h2 : get_include_content line = none) :
    (splitStep st line).include_lines = st.include_lines ++ [line] ∧
    classifyLine target hm b line = b := by
  constructor
  · have h1b : tokenInclude.isPrefixOf (pyStrip line) = true := h1
    simp only [splitStep, if_pos h1b]
  · simp only [classifyLine, h2]

/-- Witness for C10: `#include"x.h"` (no whitespace before the quote) starts
with the include token but does not match the extraction pattern. -/
theorem unparsable_include_collected_and_unbucketed_witness :
    (splitStep {} (str "#include\"x.h\"")).include_lines = [str "#include\"x.h\""] ∧
    classifyLine ⟨[str "m.cpp"]⟩ [] {} (str "#include\"x.h\"") = {} :=
  unparsable_include_collected_and_unbucketed {} ⟨[str "m.cpp"]⟩ [] {}
    (str "#include\"x.h\"") (by decide) (by decide)

/-! ### Claim C3: the include block is not contiguous (corrected) -/

/-- C3 counterexample: after collection has ended (the line `code` went to
the Epilogue), a later `#include` line is appended to the include block
again instead of going to the Epilogue — the gathered block is not
contiguous in the input. -/
theorem include_block_contiguity_counterexample :
    (splitIncludes [str "#include <b>", str "code", str "#include <a>"]).other_bottom
        = [str "code"] ∧
    (splitIncludes [str "#include <b>", str "code", str "#include <a>"]).include_lines
        = [str "#include <b>", str "#include <a>"] := by
  exact ⟨rfl, rfl⟩

/-- C3 amended: once collection has ended, a subsequent line goes to the
Epilogue only when its stripped text does not start with the include token;
an include-looking line is appended to the include block and resumes
collection (Case A precedes Case C in the loop). -/
theorem split_post_end_routing (st : SplitState) (line : Str) :
    (isInclLine line = true →
      splitStep st line
        = { st with include_lines := st.include_lines ++ [line], inside := true }) ∧
    (isInclLine line = false → st.finished = true → st.inside = false →
      splitStep st line = { st with other_bottom := st.other_bottom ++ [line] }) := by
  constructor
  · intro h
    have h2 : tokenInclude.isPrefixOf (pyStrip line) = true := h
    simp only [splitStep, if_pos h2]
  · intro h hfin hins
    have h2 : tokenInclude.isPrefixOf (pyStrip line) = false := h
    simp only [splitStep, h2, hins, hfin, Bool.false_eq_true, if_false, if_true]

/-- Witness for the amended C3 at a concrete post-block state and line. -/
theorem split_post_end_routing_witness :
    splitStep ⟨[str "#include <a>"], [], [str "x"], false, true⟩ (str "y")
      = ⟨[str "#include <a>"], [], [str "x", str "y"], false, true⟩ :=
  (split_post_end_routing ⟨[str "#include <a>"], [], [str "x"], false, true⟩ (str "y")).2
    (by decide) rfl rfl

/-! ### Claim C7: the reconstructor is not idempotent (code bug) -/

/-- C7: evaluation of the rewrite at the failing input
`"#include <a> \n#include <a>  \n"` (two unresolved include lines with
trailing whitespace, the empty header index).  The first run emits the
sorted block and the end-of-file `rstrip` trims the trailing whitespace of
the last emitted include line; on the second run the trimmed line sorts
before the untrimmed one, so the second output differs from the first —
the second run is not a fixed point, contradicting the documented
idempotence property. -/
theorem reconstructor_second_run_differs :
    sortFileBytes ⟨[str "proj", str "m.cpp"]⟩ []
        ((str "#include <a> \n#include <a>  \n").map Char.toNat)
      = some ((str "\n#include <a> \n#include <a>\n").map Char.toNat) ∧
    sortFileBytes ⟨[str "proj", str "m.cpp"]⟩ []
        ((str "\n#include <a> \n#include <a>\n").map Char.toNat)
      = some ((str "\n#include <a>\n#include <a>\n").map Char.toNat) ∧
    ((str "\n#include <a>\n#include <a>\n").map Char.toNat : List Nat)
      ≠ (str "\n#include <a> \n#include <a>\n").map Char.toNat := by
  exact ⟨by decide, by decide, by decide⟩

/-! ### Claim C5: unresolved includes are emitted sorted, not in input order -/

/-- C5 counterexample: with the empty index, the input order of the two
unresolved includes is `<b>` before `<a>`, yet the output emits `<a>`
before `<b>` — the External bucket is emitted sorted (`sorted(stl)` in
the source), not in original relative order. -/
theorem external_original_order_counterexample :
    (splitIncludes [str "#include <b>", str "#include <a>"]).include_lines
        = [str "#include <b>", str "#include <a>"] ∧
    sortLines ⟨[str "proj", str "m.cpp"]⟩ [] [str "#include <b>", str "#include <a>"]
        = some (str "\n#include <a>\n#include <b>\n") := by
  exact ⟨by decide, by decide⟩

/-- The predicate deciding whether a line is collected into the
External/unresolved bucket: its reference parses and its filename has no
candidate in the index. -/
def unresolvedLine (hm : HeaderMap) (l : Str) : Bool :=
  match get_include_content l with
  | some c => (getCands hm (pathName c)).isEmpty
  | none => false

theorem classifyResolved_stl (target : FsPath) (b : Buckets) (line : Str) (p : FsPath) :
    (classifyResolved target b line p).stl = b.stl := by
  unfold classifyResolved
  split
  · rfl
  · split
    · rfl
    · split
      · rfl
      · split <;> rfl

theorem foldl_classify_stl (target : FsPath) (hm : HeaderMap) :
    ∀ (ls : List Str) (b : Buckets),
      (ls.foldl (classifyLine target hm) b).stl = b.stl ++ ls.filter (unresolvedLine hm) := by
  intro ls
  induction ls with
  | nil => intro b; simp
  | cons l rest ih =>
    intro b
    rw [List.foldl_cons, ih]
    cases hc : get_include_content l with
    | none =>
      have h1 : classifyLine target hm b l = b := by
        simp only [classifyLine, hc]
      have h2 : unresolvedLine hm l = false := by
        simp only [unresolvedLine, hc]
      rw [h1, List.filter_cons, h2]
      simp
    | some content =>
      by_cases he : (getCands hm (pathName content)).isEmpty = true
      · have h1 : classifyLine target hm b l = { b with stl := b.stl ++ [l] } := by
          simp only [classifyLine, hc, he, if_true]
        have h2 : unresolvedLine hm l = true := by
          simp only [unresolvedLine, hc]; exact he
        rw [h1, List.filter_cons, h2]
        simp
      · have he2 : (getCands hm (pathName content)).isEmpty = false := by
          rwa [Bool.not_eq_true] at he
        have h2 : unresolvedLine hm l = false := by
          simp only [unresolvedLine, hc]; exact he2
        cases hr : resolve target (getCands hm (pathName content)) content with
        | some p =>
          have h1 : classifyLine target hm b l = classifyResolved target b l p := by
            simp only [classifyLine, hc, he2, Bool.false_eq_true, if_false, hr]
          rw [h1, classifyResolved_stl, List.filter_cons, h2]
          simp
        | none =>
          have h1 : classifyLine target hm b l = b := by
            simp only [classifyLine, hc, he2, Bool.false_eq_true, if_false, hr]
          rw [h1, List.filter_cons, h2]
          simp

theorem strLe_total : ∀ (a b : Str), (strLe a b || strLe b a) = true := by
  intro a
  induction a with
  | nil => intro b; simp [strLe]
  | cons x as ih =>
    intro b
    cases b with
    | nil => simp [strLe]
    | cons y bs =>
      simp only [strLe]
      rcases lt_trichotomy x y with h | h | h
      · rw [if_pos h]; simp
      · subst h
        rw [if_neg (lt_irrefl x), if_neg (lt_irrefl x), if_neg (lt_irrefl x),
          if_neg (lt_irrefl x)]
        exact ih bs
      · rw [if_neg (asymm h), if_neg (asymm h), if_pos h, if_pos h]
        simp

theorem strLe_trans :
    ∀ (a b c : Str), strLe a b = true → strLe b c = true → strLe a c = true := by
  intro a
  induction a with
  | nil => intro b c _ _; rfl
  | cons x as ih =>
    intro b c hab hbc
    cases b with
    | nil => simp [strLe] at hab
    | cons y bs =>
      cases c with
      | nil => simp [strLe] at hbc
      | cons z cs =>
        simp only [strLe] at hab hbc ⊢
        by_cases h1 : x < y
        · by_cases h2 : y < z
          · rw [if_pos (lt_trans h1 h2)]
          · by_cases h3 : z < y
            · rw [if_neg h2, if_pos h3] at hbc
              simp at hbc
            · have hyz : y = z := le_antisymm (not_lt.mp h3) (not_lt.mp h2)
              subst hyz
              rw [if_pos h1]
        · by_cases h1b : y < x
          · rw [if_neg h1, if_pos h1b] at hab
            simp at hab
          · have hxy : x = y := le_antisymm (not_lt.mp h1b) (not_lt.mp h1)
            subst hxy
            rw [if_neg h1, if_neg h1b] at hab
            by_cases h2 : x < z
            · rw [if_pos h2]
            · by_cases h3 : z < x
              · rw [if_neg h2, if_pos h3] at hbc
                simp at hbc
              · have hxz : x = z := le_antisymm (not_lt.mp h3) (not_lt.mp h2)
                subst hxz
                rw [if_neg h2, if_neg h3] at hbc ⊢
                exact ih bs cs hab hbc

instance : IsTotal Str (fun a b => strLe a b = true) :=
  ⟨fun a b => by
    have h := strLe_total a b
    rcases Bool.or_eq_true_iff.mp h with h2 | h2
    · exact Or.inl h2
    · exact Or.inr h2⟩

instance : IsTrans Str (fun a b => strLe a b = true) :=
  ⟨fun a b c => strLe_trans a b c⟩

/-- C5 amended: unresolved includes (reference parses, no candidate in the
index) are collected into the External bucket in their original relative
order — the bucket equals the order-preserving filter of the collected
include lines — but the reconstruction emits that bucket sorted
lexicographically by raw line text (`sorted(stl)`), as the last group,
exactly like the other non-main groups. -/
theorem external_collected_in_order_emitted_sorted (target : FsPath) (hm : HeaderMap)
    (ls : List Str) :
    ((ls.foldl (classifyLine target hm) {}).stl = ls.filter (unresolvedLine hm)) ∧
    (∀ b : Buckets, b.stl.isEmpty = false →
        ∃ pre, emitGroups b = pre ++ (sortStr b.stl ++ [[]])) ∧
    (∀ xs : List Str, List.Perm (sortStr xs) xs ∧
        List.Pairwise (fun a c => strLe a c = true) (sortStr xs)) := by
  refine ⟨?_, ?_, ?_⟩
  · have h := foldl_classify_stl target hm ls {}
    simpa using h
  · intro b hb
    refine ⟨(if b.main_header.isEmpty then [] else b.main_header ++ [[]]) ++
      (if b.same_module.isEmpty then [] else sortStr b.same_module ++ [[]]) ++
      emitDict b.other_module ++ emitDict b.plugins ++
      (if b.engine.isEmpty then [] else sortStr b.engine ++ [[]]), ?_⟩
    simp only [emitGroups, hb, Bool.false_eq_true, if_false, List.append_assoc]
  · intro xs
    exact ⟨List.perm_insertionSort _ xs,
      List.sorted_insertionSort (r := fun a c => strLe a c = true) xs⟩

/-! ### Claim C8: blank-line normalization of the output -/

/-- Executable check that a string contains no three consecutive newline
characters (hence no run of two or more blank lines between content, and
no run of three or more blank lines at the very start). -/
def noTripleNL : Str → Bool
  | a :: b :: c :: rest => !(a = '\n' && b = '\n' && c = '\n') && noTripleNL (b :: c :: rest)
  | _ => true

theorem noTriple_tail (c : Char) (s : Str) (h : noTripleNL (c :: s) = true) :
    noTripleNL s = true := by
  cases s with
  | nil => rfl
  | cons x rest =>
    cases rest with
    | nil => rfl
    | cons y rest2 =>
      simp only [noTripleNL, Bool.and_eq_true] at h
      exact h.2

theorem flushNL_cases (n : Nat) :
    flushNL n = [] ∨ flushNL n = [ '\n'] ∨ flushNL n = [ '\n', '\n'] := by
  match n with
  | 0 => exact Or.inl rfl
  | 1 => exact Or.inr (Or.inl rfl)
  | 2 => exact Or.inr (Or.inr rfl)
  | m + 3 => exact Or.inr (Or.inr (by simp [flushNL]))

theorem noTriple_cons_of_ne (c : Char) (h : ¬c = '\n') :
    ∀ t, noTripleNL t = true → noTripleNL (c :: t) = true := by
  intro t ht
  cases t with
  | nil => rfl
  | cons x rest =>
    cases rest with
    | nil => rfl
    | cons y rest2 =>
      simp only [noTripleNL, Bool.and_eq_true, Bool.not_eq_true']
      constructor
      · simp [h]
      · exact ht

theorem noTriple_flush_cons (c : Char) (h : ¬c = '\n') (t : Str)
    (ht : noTripleNL (c :: t) = true) (n : Nat) :
    noTripleNL (flushNL n ++ c :: t) = true := by
  rcases flushNL_cases n with h1 | h1 | h1 <;> rw [h1]
  · exact ht
  · cases t with
    | nil => rfl
    | cons x rest =>
      simp only [List.cons_append, List.nil_append, noTripleNL, Bool.and_eq_true,
        Bool.not_eq_true']
      exact ⟨by simp [h], ht⟩
  · cases t with
    | nil => simp [noTripleNL, h]
    | cons x rest =>
      simp only [List.cons_append, List.nil_append, noTripleNL, Bool.and_eq_true,
        Bool.not_eq_true'] at ht ⊢
      refine ⟨by simp [h], by simp [h], ht⟩

theorem collapseAux_noTriple : ∀ (s : Str) (n : Nat), noTripleNL (collapseAux s n) = true := by
  intro s
  induction s with
  | nil =>
    intro n
    rcases flushNL_cases n with h1 | h1 | h1 <;>
      simp only [collapseAux, h1] <;> rfl
  | cons c rest ih =>
    intro n
    by_cases h : c = '\n'
    · subst h
      simp only [collapseAux, if_pos rfl]
      exact ih (n + 1)
    · simp only [collapseAux, if_neg h]
      exact noTriple_flush_cons c h _ (noTriple_cons_of_ne c h _ (ih 0)) n

theorem noTriple_of_append_left :
    ∀ (u v : Str), noTripleNL (u ++ v) = true → noTripleNL u = true := by
  intro u
  induction u with
  | nil => intro v _; rfl
  | cons a rest ih =>
    intro v h
    cases rest with
    | nil => rfl
    | cons b rest2 =>
      cases rest2 with
      | nil => rfl
      | cons c rest3 =>
        simp only [List.cons_append, noTripleNL, Bool.and_eq_true] at h ⊢
        exact ⟨h.1, by
          have h2 := ih v (by simpa [List.cons_append] using h.2)
          exact h2⟩

theorem isPrefixOf_append_right {α : Type} [BEq α] [LawfulBEq α]
    (x y z : List α) (h : x.isPrefixOf y = true) : x.isPrefixOf (y ++ z) = true := by
  rw [List.isPrefixOf_iff_prefix] at h ⊢
  exact h.trans (List.prefix_append y z)

theorem hasSeq_append_right :
    ∀ (u v pat : Str), hasSeq pat u = true → hasSeq pat (u ++ v) = true := by
  intro u
  induction u with
  | nil =>
    intro v pat h
    have h2 : pat = [] := by
      cases pat with
      | nil => rfl
      | cons a r => simp [hasSeq, List.isEmpty] at h
    subst h2
    cases v with
    | nil => rfl
    | cons c rest => simp [hasSeq, List.isPrefixOf]
  | cons c rest ih =>
    intro v pat h
    simp only [hasSeq, Bool.or_eq_true] at h ⊢
    rcases h with h1 | h1
    · exact Or.inl (by
        have := isPrefixOf_append_right pat (c :: rest) v h1
        simpa using this)
    · exact Or.inr (ih v pat h1)

theorem hasSeq_triple_false_of_noTriple :
    ∀ s, noTripleNL s = true → hasSeq [ '\n', '\n', '\n'] s = false := by
  intro s
  induction s with
  | nil => intro _; rfl
  | cons c rest ih =>
    intro h
    have htail := noTriple_tail c rest h
    simp only [hasSeq, Bool.or_eq_false_iff]
    refine ⟨?_, ih htail⟩
    rw [Bool.eq_false_iff]
    intro hp
    rw [List.isPrefixOf_iff_prefix] at hp
    obtain ⟨t, ht⟩ := hp
    simp only [List.cons_append, List.nil_append] at ht
    cases rest with
    | nil => cases ht
    | cons x rest2 =>
      cases rest2 with
      | nil =>
        injection ht with e1 rest1
        cases rest1
      | cons y rest3 =>
        injection ht with e1 rest1
        injection rest1 with e2 rest2b
        injection rest2b with e3 _
        simp only [noTripleNL, Bool.and_eq_true, Bool.not_eq_true'] at h
        rw [← e1, ← e2, ← e3] at h
        simp at h

theorem rstrip_decomp (s : Str) :
    ∃ t, s = rstrip s ++ t ∧ ∀ c, c ∈ t → pySpace c = true := by
  refine ⟨(s.reverse.takeWhile pySpace).reverse, ?_, ?_⟩
  · unfold rstrip
    conv_lhs => rw [← s.reverse_reverse]
    rw [← List.reverse_append, List.takeWhile_append_dropWhile]
  · intro c hc
    rw [List.mem_reverse] at hc
    exact List.mem_takeWhile_imp hc

theorem rstrip_last_not_space (s : Str) (c : Char)
    (h : (rstrip s).getLast? = some c) : pySpace c = false := by
  unfold rstrip at h
  rw [List.getLast?_eq_head?_reverse, List.reverse_reverse] at h
  have h2 := List.head?_dropWhile_not pySpace s.reverse
  rw [h] at h2
  exact h2

theorem noTriple_append_nl :
    ∀ (r : Str), noTripleNL r = true → (∀ c, r.getLast? = some c → ¬c = '\n') →
      noTripleNL (r ++ [ '\n']) = true := by
  intro r
  induction r with
  | nil => intro _ _; rfl
  | cons a rest ih =>
    intro h hlast
    cases rest with
    | nil =>
      have ha : ¬a = '\n' := hlast a rfl
      simp [noTripleNL, ha]
    | cons b rest2 =>
      cases rest2 with
      | nil =>
        have hb : ¬b = '\n' := hlast b rfl
        simp [noTripleNL, hb]
      | cons c rest3 =>
        simp only [List.cons_append, noTripleNL, Bool.and_eq_true] at h ⊢
        refine ⟨h.1, ?_⟩
        have h2 := ih (noTriple_tail a _ (by
          simp only [noTripleNL, Bool.and_eq_true]; exact h))
          (fun d hd => hlast d (by rw [List.getLast?_cons_cons]; exact hd))
        simpa [List.cons_append] using h2

/-- The shape of the serialized output text: no three consecutive newlines,
and it consists of a trailing-whitespace-free body followed by exactly one
newline. -/
theorem finalText_shape (nc : List Str) :
    hasSeq (str "\n\n\n") (finalText nc) = false ∧
    ∃ t, finalText nc = t ++ [ '\n'] ∧ ∀ c, t.getLast? = some c → pySpace c = false := by
  have hstr : str "\n\n\n" = [ '\n', '\n', '\n'] := rfl
  have hcoll : noTripleNL (collapseNL (joinNL nc)) = true := collapseAux_noTriple _ 0
  obtain ⟨t, ht, _⟩ := rstrip_decomp (collapseNL (joinNL nc))
  have hpre : noTripleNL (rstrip (collapseNL (joinNL nc))) = true := by
    apply noTriple_of_append_left _ t
    rw [← ht]
    exact hcoll
  have hlast : ∀ c, (rstrip (collapseNL (joinNL nc))).getLast? = some c → ¬c = '\n' := by
    intro c hc hcn
    have := rstrip_last_not_space _ c hc
    rw [hcn] at this
    simp [pySpace] at this
  constructor
  · rw [hstr]
    have h3 : noTripleNL (finalText nc) = true := by
      unfold finalText
      exact noTriple_append_nl _ hpre hlast
    by_cases h4 : hasSeq [ '\n', '\n', '\n'] (finalText nc) = true
    · rw [hasSeq_triple_false_of_noTriple _ h3] at h4
      cases h4
    · rwa [Bool.not_eq_true] at h4
  · exact ⟨rstrip (collapseNL (joinNL nc)), rfl, fun c hc => rstrip_last_not_space _ c hc⟩

/-- C8: for every rewritten file, the output text contains no run of three
or more consecutive blank lines anywhere (no three consecutive newline
characters at all), has no trailing whitespace at end-of-file, and ends
with exactly one trailing newline. -/
theorem output_blank_line_normalization (target : FsPath) (hm : HeaderMap)
    (lines : List Str) (ft : Str) (h : sortLines target hm lines = some ft) :
    hasSeq (str "\n\n\n") ft = false ∧
    ∃ t, ft = t ++ [ '\n'] ∧ ∀ c, t.getLast? = some c → pySpace c = false := by
  have hft : ∃ nc, ft = finalText nc := by
    simp only [sortLines] at h
    split at h
    · cases h
    · exact ⟨_, (Option.some.injEq _ _ ▸ h).symm⟩
  obtain ⟨nc, hnc⟩ := hft
  rw [hnc]
  exact finalText_shape nc

/-- Witness for C8 at a concrete input file. -/
theorem output_blank_line_normalization_witness :
    hasSeq (str "\n\n\n") (str "\n#include <a>\n") = false ∧
    ∃ t, str "\n#include <a>\n" = t ++ [ '\n'] ∧
      ∀ c, t.getLast? = some c → pySpace c = false :=
  output_blank_line_normalization ⟨[str "proj", str "m.cpp"]⟩ [] [str "#include <a>"]
    (str "\n#include <a>\n") (by decide)

/-- Witness for the amended C5 at a concrete index and include list. -/
theorem external_collected_in_order_emitted_sorted_witness :
    (([str "#include <b>", str "#include <a>"].foldl
        (classifyLine ⟨[str "proj", str "m.cpp"]⟩ []) {}).stl
      = [str "#include <b>", str "#include <a>"].filter (unresolvedLine [])) ∧
    (∃ pre, emitGroups { stl := [str "#include <b>", str "#include <a>"] }
      = pre ++ (sortStr [str "#include <b>", str "#include <a>"] ++ [[]])) :=
  ⟨(external_collected_in_order_emitted_sorted ⟨[str "proj", str "m.cpp"]⟩ []
      [str "#include <b>", str "#include <a>"]).1,
   (external_collected_in_order_emitted_sorted ⟨[str "proj", str "m.cpp"]⟩ []
      [str "#include <b>", str "#include <a>"]).2.1
      { stl := [str "#include <b>", str "#include <a>"] } (by decide)⟩

/-! ### Claim C4: non-include content round-trip (corrected) -/

/-- C4 counterexample: the Epilogue `x, blank, blank, y` (no prescribed trim
applies: its first line is non-blank) does not reappear verbatim — the
final `re.sub(r'\n{3,}', '\n\n', ...)` collapses the two interior blank
lines to one, so the output text does not contain the verbatim Epilogue
`x\n\n\ny`. -/
theorem frame_roundtrip_counterexample :
    sortLines ⟨[str "proj", str "m.cpp"]⟩ []
        [str "// c", str "#include <a>", str "x", str "", str "", str "y"]
      = some (str "// c\n\n#include <a>\n\nx\n\ny\n") ∧
    (splitIncludes [str "// c", str "#include <a>", str "x", str "", str "", str "y"]).other_bottom
      = [str "x", str "", str "", str "y"] ∧
    hasSeq (str "x\n\n\ny") (str "// c\n\n#include <a>\n\nx\n\ny\n") = false := by
  exact ⟨by decide, by decide, by decide⟩

/-- The `new_content` list assembled by `sort_single_file` for a file's
lines: trimmed Prologue, separator, emitted groups, trimmed Epilogue. -/
def newContent (target : FsPath) (hm : HeaderMap) (lines : List Str) : List Str :=
  reconstruct (splitIncludes lines).other_top (splitIncludes lines).other_bottom
    ((splitIncludes lines).include_lines.foldl (classifyLine target hm) {})

theorem flushNL_zero : flushNL 0 = [] := rfl

theorem joinNL_mem_decomp : ∀ (nc : List Str) (l : Str), l ∈ nc →
    ∃ u v, joinNL nc = u ++ l ++ v := by
  intro nc
  induction nc with
  | nil => intro l hl; cases hl
  | cons a rest ih =>
    intro l hl
    cases rest with
    | nil =>
      rcases List.mem_cons.mp hl with h1 | h1
      · subst h1; exact ⟨[], [], by simp [joinNL]⟩
      · cases h1
    | cons b rest2 =>
      rcases List.mem_cons.mp hl with h1 | h1
      · subst h1
        exact ⟨[], '\n' :: joinNL (b :: rest2), by simp [joinNL]⟩
      · obtain ⟨u, v, huv⟩ := ih l h1
        refine ⟨a ++ '\n' :: u, v, ?_⟩
        simp [joinNL, huv, List.append_assoc]

theorem collapseAux_no_nl_run : ∀ (x v : Str), (∀ c, c ∈ x → ¬c = '\n') →
    collapseAux (x ++ v) 0 = x ++ collapseAux v 0 := by
  intro x
  induction x with
  | nil => intro v _; rfl
  | cons d x2 ih =>
    intro v h
    have hd : ¬d = '\n' := h d (List.mem_cons_self _ _)
    simp only [List.cons_append, collapseAux, if_neg hd, flushNL_zero, List.nil_append,
      List.append_eq]
    rw [ih v (fun c hc => h c (List.mem_cons_of_mem _ hc))]

theorem collapseAux_embed : ∀ (u x v : Str) (n : Nat),
    x ≠ [] → (∀ c, c ∈ x → ¬c = '\n') →
    ∃ u2 v2, collapseAux (u ++ x ++ v) n = u2 ++ x ++ v2 := by
  intro u
  induction u with
  | nil =>
    intro x v n hne hx
    cases x with
    | nil => exact absurd rfl hne
    | cons c x2 =>
      have hc : ¬c = '\n' := hx c (List.mem_cons_self _ _)
      refine ⟨flushNL n, collapseAux v 0, ?_⟩
      simp only [List.nil_append, List.cons_append, collapseAux, if_neg hc, List.append_eq]
      rw [collapseAux_no_nl_run x2 v (fun d hd => hx d (List.mem_cons_of_mem _ hd))]
      simp [List.append_assoc]
  | cons d u2 ih =>
    intro x v n hne hx
    by_cases hd : d = '\n'
    · subst hd
      simp only [List.cons_append, collapseAux, if_pos rfl]
      exact ih x v (n + 1) hne hx
    · simp only [List.cons_append, collapseAux, if_neg hd, List.append_eq]
      obtain ⟨u3, v3, huv⟩ := ih x v 0 hne hx
      refine ⟨flushNL n ++ d :: u3, v3, ?_⟩
      rw [huv]
      simp [List.append_assoc]

theorem hasSeq_middle : ∀ (u x v : Str), x ≠ [] → hasSeq x (u ++ x ++ v) = true := by
  intro u
  induction u with
  | nil =>
    intro x v hne
    cases x with
    | nil => exact absurd rfl hne
    | cons c x2 =>
      simp only [List.nil_append, List.cons_append, hasSeq, Bool.or_eq_true]
      left
      rw [List.isPrefixOf_iff_prefix]
      exact ⟨v, by simp⟩
  | cons d u2 ih =>
    intro x v hne
    simp only [List.cons_append, hasSeq, Bool.or_eq_true]
    right
    exact ih x v hne

/-- C4 amended: apart from the prescribed trims, the Prologue is a prefix
and the Epilogue a suffix of the assembled `new_content` line list, in
original order; the serialized output is exactly that list joined,
newline-run-collapsed, end-of-file-trimmed and newline-terminated — so a
non-blank Prologue or Epilogue line always survives verbatim into the
collapsed text, while runs of two or more blank lines may be collapsed and
end-of-file whitespace trimmed (byte-for-byte round-trip fails exactly
there). -/
theorem prologue_epilogue_lines_preserved_up_to_collapse (target : FsPath) (hm : HeaderMap)
    (lines : List Str) :
    (∃ mid, newContent target hm lines
        = dropTrailingBlank (splitIncludes lines).other_top ++ mid
            ++ dropLeadingBlank (splitIncludes lines).other_bottom) ∧
    (∀ ft, sortLines target hm lines = some ft →
        ft = rstrip (collapseNL (joinNL (newContent target hm lines))) ++ [ '\n']) ∧
    (∀ l, l ∈ dropTrailingBlank (splitIncludes lines).other_top
            ++ dropLeadingBlank (splitIncludes lines).other_bottom →
        '\n' ∉ l → ¬pyStrip l = [] →
        hasSeq l (collapseNL (joinNL (newContent target hm lines))) = true) := by
  refine ⟨?_, ?_, ?_⟩
  · exact ⟨[[]] ++ emitGroups ((splitIncludes lines).include_lines.foldl
      (classifyLine target hm) {}), by
        simp [newContent, reconstruct, List.append_assoc]⟩
  · intro ft h
    simp only [sortLines] at h
    split at h
    · cases h
    · injection h with h2
      rw [← h2]
      rfl
  · intro l hl hnl hns
    have hne : l ≠ [] := by
      intro he
      subst he
      exact hns rfl
    have hmem : l ∈ newContent target hm lines := by
      simp only [newContent, reconstruct]
      rcases List.mem_append.mp hl with h1 | h1
      · exact List.mem_append.mpr (Or.inl (List.mem_append.mpr (Or.inl
          (List.mem_append.mpr (Or.inl h1)))))
      · exact List.mem_append.mpr (Or.inr h1)
    obtain ⟨u, v, huv⟩ := joinNL_mem_decomp _ l hmem
    have hx : ∀ c, c ∈ l → ¬c = '\n' := fun c hc he => hnl (he ▸ hc)
    obtain ⟨u2, v2, h2⟩ := collapseAux_embed u l v 0 hne hx
    unfold collapseNL
    rw [huv, h2]
    exact hasSeq_middle u2 l v2 hne

/-- Witness for the amended C4 at a concrete file: the non-blank Epilogue
line `x` survives verbatim into the collapsed output text. -/
theorem prologue_epilogue_lines_preserved_witness :
    hasSeq (str "x") (collapseNL (joinNL (newContent ⟨[str "proj", str "m.cpp"]⟩ []
      [str "// c", str "#include <a>", str "x", str "", str "", str "y"]))) = true :=
  (prologue_epilogue_lines_preserved_up_to_collapse ⟨[str "proj", str "m.cpp"]⟩ []
      [str "// c", str "#include <a>", str "x", str "", str "", str "y"]).2.2
    (str "x") (by decide) (by decide) (by decide)

/-! ### Claim C6: encoding and line-ending preservation -/

/-- Executable check that every newline byte in a byte list occurs as part
of a CRLF pair: no lone LF, and every CR immediately followed by LF. -/
def crlfOnly : List Nat → Bool
  | [] => true
  | b :: rest =>
    if b = 13 then
      match rest with
      | b2 :: rest2 => if b2 = 10 then crlfOnly rest2 else false
      | [] => false
    else if b = 10 then false
    else crlfOnly rest

theorem char_toNat_ofNat_of_lt (b : Nat) (h : b < 256) : (Char.ofNat b).toNat = b := by
  have hv : b.isValidChar := Or.inl (by omega)
  simp [Char.ofNat, hv, Char.ofNatAux, Char.toNat, UInt32.toNat, BitVec.toNat_ofNatLt]

theorem char_eq_of_toNat (c : Char) (n : Nat) (h : c.toNat = n) : c = Char.ofNat n := by
  have h2 := Char.ofNat_toNat c
  rw [h] at h2
  exact h2.symm

theorem univNL_no_cr : ∀ (s : Str) (c : Char), c ∈ univNL s → ¬c = '\r' := by
  intro s
  induction s using univNL.induct with
  | case1 => intro c hc; cases hc
  | case2 =>
    intro c hc hcr
    subst hcr
    have he : univNL [ '\r'] = [ '\n'] := rfl
    rw [he] at hc
    simp at hc
  | case3 rest2 ih =>
    intro c hc hcr
    subst hcr
    have he : univNL ('\r' :: '\n' :: rest2) = '\n' :: univNL rest2 := rfl
    rw [he] at hc
    rcases List.mem_cons.mp hc with h1 | h1
    · cases h1
    · exact ih '\r' h1 rfl
  | case4 d rest2 hdn ih =>
    intro c hc hcr
    subst hcr
    have he : univNL ('\r' :: d :: rest2) = '\n' :: univNL (d :: rest2) := by
      conv_lhs => rw [univNL.eq_def]
      dsimp only
      rw [if_pos rfl, if_neg hdn]
    rw [he] at hc
    rcases List.mem_cons.mp hc with h1 | h1
    · cases h1
    · exact ih '\r' h1 rfl
  | case5 d rest2 hdr ih =>
    intro c hc hcr
    subst hcr
    have he : univNL (d :: rest2) = d :: univNL rest2 := by
      conv_lhs => rw [univNL.eq_def]
      dsimp only
      rw [if_neg hdr]
    rw [he] at hc
    rcases List.mem_cons.mp hc with h1 | h1
    · exact hdr h1.symm
    · exact ih '\r' h1 rfl

theorem splitlinesAux_chars (P : Char → Prop) :
    ∀ (s acc : Str), (∀ c, c ∈ acc → P c) →
      (∀ c, c ∈ s → ¬c = '\n' → P c) →
      ∀ l, l ∈ splitlinesAux s acc → ∀ c, c ∈ l → P c := by
  intro s
  induction s with
  | nil =>
    intro acc hacc _ l hl c hc
    simp only [splitlinesAux, List.mem_singleton] at hl
    subst hl
    exact hacc c (List.mem_reverse.mp hc)
  | cons d rest ih =>
    intro acc hacc hs l hl c hc
    by_cases hd : d = '\n'
    · subst hd
      unfold splitlinesAux at hl
      rw [if_pos rfl] at hl
      cases rest with
      | nil =>
        simp only [List.mem_singleton] at hl
        subst hl
        exact hacc c (List.mem_reverse.mp hc)
      | cons e rest2 =>
        dsimp only at hl
        rcases List.mem_cons.mp hl with h1 | h1
        · subst h1
          exact hacc c (List.mem_reverse.mp hc)
        · exact ih [] (fun _ h => absurd h (List.not_mem_nil _))
            (fun c2 h2 => hs c2 (List.mem_cons_of_mem _ h2)) l h1 c hc
    · unfold splitlinesAux at hl
      rw [if_neg hd] at hl
      exact ih (d :: acc)
        (fun c2 h2 => by
          rcases List.mem_cons.mp h2 with h3 | h3
          · rw [h3]; exact hs d (List.mem_cons_self _ _) hd
          · exact hacc c2 h3)
        (fun c2 h2 => hs c2 (List.mem_cons_of_mem _ h2)) l hl c hc

theorem splitlinesChar_chars (P : Char → Prop) (t : Str)
    (ht : ∀ c, c ∈ t → ¬c = '\n' → P c) :
    ∀ l, l ∈ splitlinesChar t → ∀ c, c ∈ l → P c := by
  cases t with
  | nil => intro l hl; cases hl
  | cons d rest =>
    intro l hl c hc
    exact splitlinesAux_chars P (d :: rest) []
      (fun _ h => absurd h (List.not_mem_nil _)) ht l hl c hc

theorem splitlinesChar_no_nl (t : Str) :
    ∀ l, l ∈ splitlinesChar t → ∀ c, c ∈ l → ¬c = '\n' := by
  have h := splitlinesChar_chars (fun c => ¬c = '\n') t (fun _ _ h2 => h2)
  exact h

/-- All raw lines stored in a keyed group dict. -/
def dictLines (d : List (Str × List Str)) : List Str :=
  d.foldr (fun kv acc => kv.2 ++ acc) []

/-- All raw lines stored in any bucket. -/
def bucketLines (b : Buckets) : List Str :=
  b.main_header ++ b.same_module ++ dictLines b.other_module ++ dictLines b.plugins
    ++ b.engine ++ b.stl

theorem dictLines_mem_of : ∀ (d : List (Str × List Str)) (kv : Str × List Str) (l : Str),
    kv ∈ d → l ∈ kv.2 → l ∈ dictLines d := by
  intro d
  induction d with
  | nil => intro kv l hkv; cases hkv
  | cons kv0 rest ih =>
    intro kv l hkv hl
    simp only [dictLines, List.foldr_cons, List.mem_append]
    rcases List.mem_cons.mp hkv with h1 | h1
    · subst h1; exact Or.inl hl
    · exact Or.inr (ih kv l h1 hl)

theorem dictLines_dictAppend : ∀ (d : List (Str × List Str)) (k v l : Str),
    l ∈ dictLines (dictAppend d k v) → l ∈ dictLines d ∨ l = v := by
  intro d
  induction d with
  | nil =>
    intro k v l hl
    simp [dictAppend, dictLines] at hl
    exact Or.inr hl
  | cons kv rest ih =>
    intro k v l hl
    obtain ⟨k2, vs⟩ := kv
    by_cases hk : k2 = k
    · rw [show dictAppend ((k2, vs) :: rest) k v = (k2, vs ++ [v]) :: rest by
        simp [dictAppend, hk]] at hl
      simp only [dictLines, List.foldr_cons, List.mem_append, List.mem_singleton] at hl ⊢
      rcases hl with (h | h) | h
      · exact Or.inl (Or.inl h)
      · exact Or.inr h
      · exact Or.inl (Or.inr h)
    · rw [show dictAppend ((k2, vs) :: rest) k v = (k2, vs) :: dictAppend rest k v by
        simp [dictAppend, hk]] at hl
      simp only [dictLines, List.foldr_cons, List.mem_append] at hl ⊢
      rcases hl with h | h
      · exact Or.inl (Or.inl h)
      · rcases ih k v l h with h2 | h2
        · exact Or.inl (Or.inr h2)
        · exact Or.inr h2

theorem mem_bl_main (b : Buckets) (l : Str) (h : l ∈ b.main_header) : l ∈ bucketLines b :=
  List.mem_append_left _ (List.mem_append_left _ (List.mem_append_left _
    (List.mem_append_left _ (List.mem_append_left _ h))))

theorem mem_bl_same (b : Buckets) (l : Str) (h : l ∈ b.same_module) : l ∈ bucketLines b :=
  List.mem_append_left _ (List.mem_append_left _ (List.mem_append_left _
    (List.mem_append_left _ (List.mem_append_right _ h))))

theorem mem_bl_other (b : Buckets) (l : Str) (h : l ∈ dictLines b.other_module) :
    l ∈ bucketLines b :=
  List.mem_append_left _ (List.mem_append_left _ (List.mem_append_left _
    (List.mem_append_right _ h)))

theorem mem_bl_plug (b : Buckets) (l : Str) (h : l ∈ dictLines b.plugins) :
    l ∈ bucketLines b :=
  List.mem_append_left _ (List.mem_append_left _ (List.mem_append_right _ h))

theorem mem_bl_engine (b : Buckets) (l : Str) (h : l ∈ b.engine) : l ∈ bucketLines b :=
  List.mem_append_left _ (List.mem_append_right _ h)

theorem mem_bl_stl (b : Buckets) (l : Str) (h : l ∈ b.stl) : l ∈ bucketLines b :=
  List.mem_append_right _ h

theorem classifyResolved_mem (target : FsPath) (b : Buckets) (line : Str) (p : FsPath)
    (l : Str) (hl : l ∈ bucketLines (classifyResolved target b line p)) :
    l ∈ bucketLines b ∨ l = line := by
  unfold classifyResolved at hl
  split at hl
  · rcases List.mem_append.mp hl with h1 | h1
    · rcases List.mem_append.mp h1 with h2 | h2
      · rcases List.mem_append.mp h2 with h3 | h3
        · rcases List.mem_append.mp h3 with h4 | h4
          · rcases List.mem_append.mp h4 with h5 | h5
            · rcases List.mem_append.mp h5 with h6 | h6
              · exact Or.inl (mem_bl_main b l h6)
              · exact Or.inr (List.mem_singleton.mp h6)
            · exact Or.inl (mem_bl_same b l h5)
          · exact Or.inl (mem_bl_other b l h4)
        · exact Or.inl (mem_bl_plug b l h3)
      · exact Or.inl (mem_bl_engine b l h2)
    · exact Or.inl (mem_bl_stl b l h1)
  · split at hl
    · rcases List.mem_append.mp hl with h1 | h1
      · rcases List.mem_append.mp h1 with h2 | h2
        · exact Or.inl (List.mem_append_left _ (List.mem_append_left _ h2))
        · rcases List.mem_append.mp h2 with h3 | h3
          · exact Or.inl (mem_bl_engine b l h3)
          · exact Or.inr (List.mem_singleton.mp h3)
      · exact Or.inl (mem_bl_stl b l h1)
    · split at hl
      · rcases List.mem_append.mp hl with h1 | h1
        · rcases List.mem_append.mp h1 with h2 | h2
          · rcases List.mem_append.mp h2 with h3 | h3
            · rcases List.mem_append.mp h3 with h4 | h4
              · rcases List.mem_append.mp h4 with h5 | h5
                · exact Or.inl (mem_bl_main b l h5)
                · rcases List.mem_append.mp h5 with h6 | h6
                  · exact Or.inl (mem_bl_same b l h6)
                  · exact Or.inr (List.mem_singleton.mp h6)
              · exact Or.inl (mem_bl_other b l h4)
            · exact Or.inl (mem_bl_plug b l h3)
          · exact Or.inl (mem_bl_engine b l h2)
        · exact Or.inl (mem_bl_stl b l h1)
      · split at hl
        · rcases List.mem_append.mp hl with h1 | h1
          · rcases List.mem_append.mp h1 with h2 | h2
            · rcases List.mem_append.mp h2 with h3 | h3
              · exact Or.inl (List.mem_append_left _ (List.mem_append_left _
                  (List.mem_append_left _ h3)))
              · rcases dictLines_dictAppend _ _ _ _ h3 with h4 | h4
                · exact Or.inl (mem_bl_plug b l h4)
                · exact Or.inr h4
            · exact Or.inl (mem_bl_engine b l h2)
          · exact Or.inl (mem_bl_stl b l h1)
        · rcases List.mem_append.mp hl with h1 | h1
          · rcases List.mem_append.mp h1 with h2 | h2
            · rcases List.mem_append.mp h2 with h3 | h3
              · rcases List.mem_append.mp h3 with h4 | h4
                · exact Or.inl (List.mem_append_left _ (List.mem_append_left _
                    (List.mem_append_left _ (List.mem_append_left _ h4))))
                · rcases dictLines_dictAppend _ _ _ _ h4 with h5 | h5
                  · exact Or.inl (mem_bl_other b l h5)
                  · exact Or.inr h5
              · exact Or.inl (mem_bl_plug b l h3)
            · exact Or.inl (mem_bl_engine b l h2)
          · exact Or.inl (mem_bl_stl b l h1)

theorem classifyLine_mem (target : FsPath) (hm : HeaderMap) (b : Buckets) (a l : Str)
    (hl : l ∈ bucketLines (classifyLine target hm b a)) :
    l ∈ bucketLines b ∨ l = a := by
  unfold classifyLine at hl
  split at hl
  · exact Or.inl hl
  · split at hl
    · rcases List.mem_append.mp hl with h1 | h1
      · exact Or.inl (List.mem_append_left _ h1)
      · rcases List.mem_append.mp h1 with h2 | h2
        · exact Or.inl (mem_bl_stl b l h2)
        · exact Or.inr (List.mem_singleton.mp h2)
    · split at hl
      · exact classifyResolved_mem _ _ _ _ _ hl
      · exact Or.inl hl

theorem foldl_classify_mem (target : FsPath) (hm : HeaderMap) :
    ∀ (ls : List Str) (b : Buckets) (l : Str),
      l ∈ bucketLines (ls.foldl (classifyLine target hm) b) →
      l ∈ bucketLines b ∨ l ∈ ls := by
  intro ls
  induction ls with
  | nil => intro b l h; exact Or.inl h
  | cons a rest ih =>
    intro b l h
    rw [List.foldl_cons] at h
    rcases ih (classifyLine target hm b a) l h with h2 | h2
    · rcases classifyLine_mem target hm b a l h2 with h3 | h3
      · exact Or.inl h3
      · subst h3; exact Or.inr (List.mem_cons_self _ _)
    · exact Or.inr (List.mem_cons_of_mem _ h2)

theorem emitDict_mem : ∀ (d : List (Str × List Str)) (l : Str),
    l ∈ emitDict d → l = [] ∨ l ∈ dictLines d := by
  intro d l hl
  unfold emitDict at hl
  have hfold : ∀ (ds : List (Str × List Str)),
      l ∈ ds.foldr (fun kv acc => sortStr kv.2 ++ [[]] ++ acc) [] →
      l = [] ∨ ∃ kv, kv ∈ ds ∧ l ∈ kv.2 := by
    intro ds
    induction ds with
    | nil => intro h; cases h
    | cons kv rest ih =>
      intro h
      simp only [List.foldr_cons, List.mem_append, List.mem_singleton] at h
      rcases h with (h | h) | h
      · exact Or.inr ⟨kv, List.mem_cons_self _ _,
          ((List.perm_insertionSort _ kv.2).mem_iff).mp h⟩
      · exact Or.inl h
      · rcases ih h with h2 | ⟨kv2, hkv2, h3⟩
        · exact Or.inl h2
        · exact Or.inr ⟨kv2, List.mem_cons_of_mem _ hkv2, h3⟩
  rcases hfold _ hl with h | ⟨kv, hkv, h2⟩
  · exact Or.inl h
  · exact Or.inr (dictLines_mem_of d kv l
      (((List.perm_insertionSort _ d).mem_iff).mp hkv) h2)

theorem emitGroups_mem (b : Buckets) (l : Str) (hl : l ∈ emitGroups b) :
    l = [] ∨ l ∈ bucketLines b := by
  unfold emitGroups at hl
  simp only [List.mem_append] at hl
  have hmain : l ∈ (if b.main_header.isEmpty then [] else b.main_header ++ [[]]) →
      l = [] ∨ l ∈ bucketLines b := by
    intro h
    split at h
    · cases h
    · rcases List.mem_append.mp h with h2 | h2
      · exact Or.inr (mem_bl_main b l h2)
      · left; simpa using h2
  have hsame : l ∈ (if b.same_module.isEmpty then [] else sortStr b.same_module ++ [[]]) →
      l = [] ∨ l ∈ bucketLines b := by
    intro h
    split at h
    · cases h
    · rcases List.mem_append.mp h with h2 | h2
      · right
        exact mem_bl_same b l (((List.perm_insertionSort _ b.same_module).mem_iff).mp h2)
      · left; simpa using h2
  have hengine : l ∈ (if b.engine.isEmpty then [] else sortStr b.engine ++ [[]]) →
      l = [] ∨ l ∈ bucketLines b := by
    intro h
    split at h
    · cases h
    · rcases List.mem_append.mp h with h2 | h2
      · right
        exact mem_bl_engine b l (((List.perm_insertionSort _ b.engine).mem_iff).mp h2)
      · left; simpa using h2
  have hstl : l ∈ (if b.stl.isEmpty then [] else sortStr b.stl ++ [[]]) →
      l = [] ∨ l ∈ bucketLines b := by
    intro h
    split at h
    · cases h
    · rcases List.mem_append.mp h with h2 | h2
      · right
        exact mem_bl_stl b l (((List.perm_insertionSort _ b.stl).mem_iff).mp h2)
      · left; simpa using h2
  have hother : l ∈ emitDict b.other_module → l = [] ∨ l ∈ bucketLines b := by
    intro h
    rcases emitDict_mem _ _ h with h2 | h2
    · exact Or.inl h2
    · exact Or.inr (mem_bl_other b l h2)
  have hplug : l ∈ emitDict b.plugins → l = [] ∨ l ∈ bucketLines b := by
    intro h
    rcases emitDict_mem _ _ h with h2 | h2
    · exact Or.inl h2
    · exact Or.inr (mem_bl_plug b l h2)
  rcases hl with ((((h | h) | h) | h) | h) | h
  · exact hmain h
  · exact hsame h
  · exact hother h
  · exact hplug h
  · exact hengine h
  · exact hstl h

theorem splitStep_fields (st : SplitState) (line : Str) :
    ((splitStep st line).include_lines = st.include_lines ∨
      (splitStep st line).include_lines = st.include_lines ++ [line]) ∧
    ((splitStep st line).other_top = st.other_top ∨
      (splitStep st line).other_top = st.other_top ++ [line]) ∧
    ((splitStep st line).other_bottom = st.other_bottom ∨
      (splitStep st line).other_bottom = st.other_bottom ++ [line]) := by
  unfold splitStep
  split
  · exact ⟨Or.inr rfl, Or.inl rfl, Or.inl rfl⟩
  · split
    · split
      · exact ⟨Or.inl rfl, Or.inl rfl, Or.inl rfl⟩
      · exact ⟨Or.inl rfl, Or.inl rfl, Or.inr rfl⟩
    · split
      · exact ⟨Or.inl rfl, Or.inl rfl, Or.inr rfl⟩
      · exact ⟨Or.inl rfl, Or.inr rfl, Or.inl rfl⟩

theorem splitIncludes_fields_mem : ∀ (ls : List Str) (st : SplitState) (l : Str),
    (l ∈ (ls.foldl splitStep st).include_lines → l ∈ st.include_lines ∨ l ∈ ls) ∧
    (l ∈ (ls.foldl splitStep st).other_top → l ∈ st.other_top ∨ l ∈ ls) ∧
    (l ∈ (ls.foldl splitStep st).other_bottom → l ∈ st.other_bottom ∨ l ∈ ls) := by
  intro ls
  induction ls with
  | nil =>
    intro st l
    exact ⟨fun h => Or.inl h, fun h => Or.inl h, fun h => Or.inl h⟩
  | cons a rest ih =>
    intro st l
    obtain ⟨h1, h2, h3⟩ := splitStep_fields st a
    refine ⟨?_, ?_, ?_⟩
    · intro hmem
      rw [List.foldl_cons] at hmem
      rcases (ih (splitStep st a) l).1 hmem with hin | hin
      · rcases h1 with he | he
        · rw [he] at hin; exact Or.inl hin
        · rw [he] at hin
          rcases List.mem_append.mp hin with h4 | h4
          · exact Or.inl h4
          · simp only [List.mem_singleton] at h4
            subst h4
            exact Or.inr (List.mem_cons_self _ _)
      · exact Or.inr (List.mem_cons_of_mem _ hin)
    · intro hmem
      rw [List.foldl_cons] at hmem
      rcases (ih (splitStep st a) l).2.1 hmem with hin | hin
      · rcases h2 with he | he
        · rw [he] at hin; exact Or.inl hin
        · rw [he] at hin
          rcases List.mem_append.mp hin with h4 | h4
          · exact Or.inl h4
          · simp only [List.mem_singleton] at h4
            subst h4
            exact Or.inr (List.mem_cons_self _ _)
      · exact Or.inr (List.mem_cons_of_mem _ hin)
    · intro hmem
      rw [List.foldl_cons] at hmem
      rcases (ih (splitStep st a) l).2.2 hmem with hin | hin
      · rcases h3 with he | he
        · rw [he] at hin; exact Or.inl hin
        · rw [he] at hin
          rcases List.mem_append.mp hin with h4 | h4
          · exact Or.inl h4
          · simp only [List.mem_singleton] at h4
            subst h4
            exact Or.inr (List.mem_cons_self _ _)
      · exact Or.inr (List.mem_cons_of_mem _ hin)

theorem dropTrailingBlank_subset (ls : List Str) (l : Str) (h : l ∈ dropTrailingBlank ls) :
    l ∈ ls := by
  unfold dropTrailingBlank at h
  rw [List.mem_reverse] at h
  exact List.mem_reverse.mp ((List.dropWhile_sublist _).subset h)

theorem dropLeadingBlank_subset (ls : List Str) (l : Str) (h : l ∈ dropLeadingBlank ls) :
    l ∈ ls :=
  (List.dropWhile_sublist _).subset h

theorem bucketLines_empty : bucketLines {} = [] := rfl

theorem newContent_mem (target : FsPath) (hm : HeaderMap) (lines : List Str) (l : Str)
    (hl : l ∈ newContent target hm lines) : l = [] ∨ l ∈ lines := by
  unfold newContent reconstruct at hl
  rcases List.mem_append.mp hl with h1 | h1
  · rcases List.mem_append.mp h1 with h2 | h2
    · rcases List.mem_append.mp h2 with h3 | h3
      · right
        have h4 := dropTrailingBlank_subset _ _ h3
        rcases (splitIncludes_fields_mem lines {} l).2.1 h4 with h5 | h5
        · exact absurd h5 (List.not_mem_nil l)
        · exact h5
      · left; simpa using h3
    · rcases emitGroups_mem _ _ h2 with h3 | h3
      · exact Or.inl h3
      · right
        rcases foldl_classify_mem target hm _ {} l h3 with h4 | h4
        · rw [bucketLines_empty] at h4
          exact absurd h4 (List.not_mem_nil l)
        · rcases (splitIncludes_fields_mem lines {} l).1 h4 with h5 | h5
          · exact absurd h5 (List.not_mem_nil l)
          · exact h5
  · right
    have h4 := dropLeadingBlank_subset _ _ h1
    rcases (splitIncludes_fields_mem lines {} l).2.2 h4 with h5 | h5
    · exact absurd h5 (List.not_mem_nil l)
    · exact h5

theorem flushNL_chars (n : Nat) (c : Char) (h : c ∈ flushNL n) : c = '\n' := by
  rcases flushNL_cases n with h1 | h1 | h1 <;> rw [h1] at h
  · cases h
  · simpa using h
  · rcases List.mem_cons.mp h with h2 | h2
    · exact h2
    · simpa using h2

theorem collapseAux_chars : ∀ (s : Str) (n : Nat) (c : Char),
    c ∈ collapseAux s n → c = '\n' ∨ c ∈ s := by
  intro s
  induction s with
  | nil => intro n c h; exact Or.inl (flushNL_chars n c h)
  | cons d rest ih =>
    intro n c h
    by_cases hd : d = '\n'
    · subst hd
      rw [show collapseAux ('\n' :: rest) n = collapseAux rest (n + 1) from by
        simp [collapseAux]] at h
      rcases ih (n + 1) c h with h2 | h2
      · exact Or.inl h2
      · exact Or.inr (List.mem_cons_of_mem _ h2)
    · rw [show collapseAux (d :: rest) n = flushNL n ++ d :: collapseAux rest 0 from by
        simp [collapseAux, hd]] at h
      rcases List.mem_append.mp h with h2 | h2
      · exact Or.inl (flushNL_chars n c h2)
      · rcases List.mem_cons.mp h2 with h3 | h3
        · subst h3; exact Or.inr (List.mem_cons_self _ _)
        · rcases ih 0 c h3 with h4 | h4
          · exact Or.inl h4
          · exact Or.inr (List.mem_cons_of_mem _ h4)

theorem joinNL_chars : ∀ (nc : List Str) (c : Char), c ∈ joinNL nc →
    c = '\n' ∨ ∃ l, l ∈ nc ∧ c ∈ l := by
  intro nc
  induction nc with
  | nil => intro c h; cases h
  | cons a rest ih =>
    intro c h
    cases rest with
    | nil =>
      right
      exact ⟨a, List.mem_cons_self _ _, by simpa [joinNL] using h⟩
    | cons b rest2 =>
      rw [show joinNL (a :: b :: rest2) = a ++ '\n' :: joinNL (b :: rest2) from rfl] at h
      rcases List.mem_append.mp h with h2 | h2
      · exact Or.inr ⟨a, List.mem_cons_self _ _, h2⟩
      · rcases List.mem_cons.mp h2 with h3 | h3
        · exact Or.inl h3
        · rcases ih c h3 with h4 | ⟨l, hl, h5⟩
          · exact Or.inl h4
          · exact Or.inr ⟨l, List.mem_cons_of_mem _ hl, h5⟩

theorem rstrip_subset (s : Str) (c : Char) (h : c ∈ rstrip s) : c ∈ s := by
  unfold rstrip at h
  rw [List.mem_reverse] at h
  exact List.mem_reverse.mp ((List.dropWhile_sublist _).subset h)

theorem finalText_chars (nc : List Str) (c : Char) (hc : c ∈ finalText nc) :
    c = '\n' ∨ ∃ l, l ∈ nc ∧ c ∈ l := by
  unfold finalText at hc
  rcases List.mem_append.mp hc with h1 | h1
  · have h2 := rstrip_subset _ _ h1
    rcases collapseAux_chars _ _ _ h2 with h3 | h3
    · exact Or.inl h3
    · exact joinNL_chars _ _ h3
  · exact Or.inl (by simpa using h1)

theorem pipeline_ft_no_cr (target : FsPath) (hm : HeaderMap) (body : List Nat) (c : Char)
    (hc : c ∈ finalText (newContent target hm (splitlinesChar (univNL (body.map Char.ofNat))))) :
    ¬c = '\r' := by
  intro he
  subst he
  rcases finalText_chars _ _ hc with h1 | ⟨l, hl, h2⟩
  · exact absurd h1 (by decide)
  · rcases newContent_mem _ _ _ _ hl with h3 | h3
    · subst h3; cases h2
    · exact splitlinesChar_chars (fun c => ¬c = '\r') _
        (fun c2 hc2 _ => univNL_no_cr _ c2 hc2) l h3 '\r' h2 rfl

theorem sortLines_eq_finalText (target : FsPath) (hm : HeaderMap) (lines : List Str)
    (ft : Str) (h : sortLines target hm lines = some ft) :
    ft = finalText (newContent target hm lines) := by
  simp only [sortLines] at h
  split at h
  · cases h
  · injection h with h2
    exact h2.symm

theorem encodeText_cons (crlf : Bool) (c : Char) (rest : Str) :
    encodeText crlf (c :: rest)
      = (if c = '\n' then (if crlf then [13, 10] else [10]) else [c.toNat])
          ++ encodeText crlf rest := rfl

theorem encodeText_append (crlf : Bool) :
    ∀ s t : Str, encodeText crlf (s ++ t) = encodeText crlf s ++ encodeText crlf t := by
  intro s
  induction s with
  | nil => intro t; rfl
  | cons c rest ih =>
    intro t
    rw [List.cons_append, encodeText_cons, encodeText_cons, ih, List.append_assoc]

theorem toNat_eq_13 (c : Char) (h : c.toNat = 13) : c = '\r' := by
  have h2 := char_eq_of_toNat c 13 h
  rw [h2]

theorem toNat_eq_10 (c : Char) (h : c.toNat = 10) : c = '\n' := by
  have h2 := char_eq_of_toNat c 10 h
  rw [h2]

theorem crlfOnly_cons_1310 (X : List Nat) : crlfOnly (13 :: 10 :: X) = crlfOnly X := rfl

theorem crlfOnly_cons_other (b : Nat) (X : List Nat) (h13 : ¬b = 13) (h10 : ¬b = 10) :
    crlfOnly (b :: X) = crlfOnly X := by
  conv_lhs => rw [crlfOnly.eq_def]
  dsimp only
  rw [if_neg h13, if_neg h10]

theorem encodeText_crlfOnly (ft : Str) (hcr : ∀ c, c ∈ ft → ¬c = '\r') :
    crlfOnly (encodeText true ft) = true := by
  induction ft with
  | nil => rfl
  | cons c rest ih =>
    rw [encodeText_cons]
    by_cases hc : c = '\n'
    · rw [if_pos hc]
      show crlfOnly (13 :: 10 :: encodeText true rest) = true
      rw [crlfOnly_cons_1310]
      exact ih (fun d hd => hcr d (List.mem_cons_of_mem _ hd))
    · rw [if_neg hc]
      have h13 : ¬c.toNat = 13 := fun he => hcr c (List.mem_cons_self _ _) (toNat_eq_13 c he)
      have h10 : ¬c.toNat = 10 := fun he => hc (toNat_eq_10 c he)
      show crlfOnly (c.toNat :: encodeText true rest) = true
      rw [crlfOnly_cons_other _ _ h13 h10]
      exact ih (fun d hd => hcr d (List.mem_cons_of_mem _ hd))

theorem crlfOnly_bom (X : List Nat) : crlfOnly (bomBytes ++ X) = crlfOnly X := by
  show crlfOnly (239 :: 187 :: 191 :: X) = crlfOnly X
  rw [crlfOnly_cons_other 239 _ (by decide) (by decide),
    crlfOnly_cons_other 187 _ (by decide) (by decide),
    crlfOnly_cons_other 191 _ (by decide) (by decide)]

theorem encodeText_no13 (ft : Str) (hcr : ∀ c, c ∈ ft → ¬c = '\r') :
    ∀ b, b ∈ encodeText false ft → ¬b = 13 := by
  induction ft with
  | nil => intro b h; cases h
  | cons c rest ih =>
    intro b h
    rw [encodeText_cons] at h
    rcases List.mem_append.mp h with h1 | h1
    · by_cases hc : c = '\n'
      · rw [if_pos hc] at h1
        have h2 : b = 10 := by simpa using h1
        subst h2
        decide
      · rw [if_neg hc] at h1
        have h2 : b = c.toNat := by simpa using h1
        subst h2
        intro he
        exact hcr c (List.mem_cons_self _ _) (toNat_eq_13 c he)
    · exact ih (fun d hd => hcr d (List.mem_cons_of_mem _ hd)) b h1

theorem encodeText_last (crlf : Bool) (R : Str) :
    (encodeText crlf (R ++ [ '\n'])).getLast? = some 10 := by
  rw [encodeText_append]
  have h2 : encodeText crlf [ '\n'] = if crlf then [13, 10] else [10] := by
    cases crlf <;> rfl
  rw [h2]
  cases crlf <;> simp

theorem encodeText_cons_inv (crlf : Bool) (ft : Str) (b : Nat) (w : List Nat)
    (h : encodeText crlf ft = b :: w) (hb13 : ¬b = 13) (hb10 : ¬b = 10) :
    ∃ c ft2, ft = c :: ft2 ∧ c.toNat = b ∧ ¬c = '\n' ∧ encodeText crlf ft2 = w := by
  cases ft with
  | nil => cases h
  | cons c rest =>
    rw [encodeText_cons] at h
    by_cases hc : c = '\n'
    · rw [if_pos hc] at h
      cases crlf
      · rw [if_neg (by simp)] at h
        simp only [List.cons_append, List.nil_append] at h
        injection h with h1 h2
        exact absurd h1.symm hb10
      · rw [if_pos rfl] at h
        simp only [List.cons_append, List.nil_append] at h
        injection h with h1 h2
        exact absurd h1.symm hb13
    · rw [if_neg hc] at h
      simp only [List.cons_append, List.nil_append] at h
      injection h with h1 h2
      exact ⟨c, rest, rfl, h1, hc, h2⟩

/-! ### Claim C6: head of the pipeline (for the no-BOM direction) -/

theorem flushNL_head_nl (n : Nat) (c : Char) (W : Str) (h : flushNL n = c :: W) :
    c = '\n' := by
  unfold flushNL at h
  split at h
  · injection h with h1 _
    exact h1.symm
  · cases n with
    | zero => exact List.noConfusion h
    | succ m =>
      rw [List.replicate_succ] at h
      injection h with h1 _
      exact h1.symm

theorem flushNL_nil (n : Nat) (h : flushNL n = []) : n = 0 := by
  unfold flushNL at h
  split at h
  · exact List.noConfusion h
  · cases n with
    | zero => rfl
    | succ m =>
      rw [List.replicate_succ] at h
      exact List.noConfusion h

theorem collapseAux_head : ∀ (s : Str) (n : Nat) (c : Char) (W : Str),
    collapseAux s n = c :: W → ¬c = '\n' →
    n = 0 ∧ ∃ s2, s = c :: s2 ∧ collapseAux s2 0 = W := by
  intro s
  induction s with
  | nil =>
    intro n c W h hc
    exact absurd (flushNL_head_nl n c W h) hc
  | cons a rest ih =>
    intro n c W h hc
    simp only [collapseAux] at h
    by_cases ha : a = '\n'
    · rw [if_pos ha] at h
      obtain ⟨hn, -⟩ := ih (n + 1) c W h hc
      exact absurd hn (Nat.succ_ne_zero n)
    · rw [if_neg ha] at h
      cases hfn : flushNL n with
      | nil =>
        rw [hfn, List.nil_append] at h
        injection h with e1 e2
        exact ⟨flushNL_nil n hfn, rest, by rw [e1], e2⟩
      | cons d W2 =>
        rw [hfn, List.cons_append] at h
        injection h with e1 _
        rw [← e1] at hc
        exact absurd (flushNL_head_nl n d W2 hfn) hc

theorem joinNL_cons_decomp (l : Str) (ls : List Str) :
    ∃ T, joinNL (l :: ls) = l ++ T ∧ (T = [] ∨ ∃ T2, T = '\n' :: T2) := by
  cases ls with
  | nil => exact ⟨[], by simp [joinNL], Or.inl rfl⟩
  | cons l2 ls2 => exact ⟨'\n' :: joinNL (l2 :: ls2), rfl, Or.inr ⟨_, rfl⟩⟩

theorem dropTrailingBlank_isPre (ls : List Str) : dropTrailingBlank ls <+: ls := by
  unfold dropTrailingBlank
  rw [← List.reverse_suffix, List.reverse_reverse]
  exact List.dropWhile_suffix _

theorem splitStep_keeps_top (st : SplitState) (line : Str)
    (h : st.inside = true ∨ st.finished = true) :
    (splitStep st line).other_top = st.other_top ∧
    ((splitStep st line).inside = true ∨ (splitStep st line).finished = true) := by
  unfold splitStep
  by_cases h1 : tokenInclude.isPrefixOf (pyStrip line) = true
  · rw [if_pos h1]
    exact ⟨rfl, Or.inl rfl⟩
  · rw [if_neg h1]
    by_cases h2 : st.inside = true
    · rw [if_pos h2]
      by_cases h3 : (pyStrip line).isEmpty = true
      · rw [if_pos h3]
        exact ⟨rfl, Or.inl h2⟩
      · rw [if_neg h3]
        exact ⟨rfl, Or.inr rfl⟩
    · rw [if_neg h2]
      have h4 : st.finished = true := h.resolve_left h2
      rw [if_pos h4]
      exact ⟨rfl, Or.inr h4⟩

theorem foldl_splitStep_top_frozen : ∀ (lines : List Str) (st : SplitState),
    st.inside = true ∨ st.finished = true →
    (lines.foldl splitStep st).other_top = st.other_top := by
  intro lines
  induction lines with
  | nil => intro st _; rfl
  | cons l rest ih =>
    intro st h
    rw [List.foldl_cons]
    obtain ⟨h1, h2⟩ := splitStep_keeps_top st l h
    rw [ih _ h2, h1]

theorem foldl_splitStep_top_virgin : ∀ (lines : List Str) (acc : List Str),
    (lines.foldl splitStep ⟨[], acc, [], false, false⟩).other_top
      = acc ++ lines.takeWhile (fun l0 => !(isInclLine l0)) := by
  intro lines
  induction lines with
  | nil => intro acc; simp
  | cons l rest ih =>
    intro acc
    by_cases h1 : tokenInclude.isPrefixOf (pyStrip l) = true
    · have hstep : splitStep ⟨[], acc, [], false, false⟩ l = ⟨[l], acc, [], true, false⟩ := by
        unfold splitStep
        rw [if_pos h1]
        rfl
      rw [List.foldl_cons, hstep, foldl_splitStep_top_frozen rest _ (Or.inl rfl)]
      show acc = acc ++ List.takeWhile (fun l0 => !(isInclLine l0)) (l :: rest)
      rw [List.takeWhile_cons]
      simp [isInclLine, h1]
    · have hstep : splitStep ⟨[], acc, [], false, false⟩ l
          = ⟨[], acc ++ [l], [], false, false⟩ := by
        unfold splitStep
        rw [if_neg h1]
        rfl
      rw [List.foldl_cons, hstep, ih (acc ++ [l]), List.takeWhile_cons]
      simp [isInclLine, h1]

theorem splitIncludes_top_isPre (lines : List Str) :
    (splitIncludes lines).other_top <+: lines := by
  have h := foldl_splitStep_top_virgin lines []
  rw [List.nil_append] at h
  have h2 : (splitIncludes lines).other_top
      = lines.takeWhile (fun l0 => !(isInclLine l0)) := h
  rw [h2]
  exact List.takeWhile_prefix _

theorem splitlinesAux_head_isPre : ∀ (s acc : Str) (l0 : Str) (tl : List Str),
    splitlinesAux s acc = l0 :: tl → ∃ k, l0 = acc.reverse ++ k ∧ k <+: s := by
  intro s
  induction s with
  | nil =>
    intro acc l0 tl h
    injection h with e _
    exact ⟨[], by rw [← e, List.append_nil], List.nil_prefix⟩
  | cons c rest ih =>
    intro acc l0 tl h
    rw [splitlinesAux.eq_def] at h
    dsimp only at h
    by_cases hc : c = '\n'
    · rw [if_pos hc] at h
      cases rest with
      | nil =>
        injection h with e _
        exact ⟨[], by rw [← e, List.append_nil], List.nil_prefix⟩
      | cons d r2 =>
        injection h with e _
        exact ⟨[], by rw [← e, List.append_nil], List.nil_prefix⟩
    · rw [if_neg hc] at h
      obtain ⟨k, hk1, hk2⟩ := ih (c :: acc) l0 tl h
      refine ⟨c :: k, ?_, ?_⟩
      · rw [hk1, List.reverse_cons, List.append_assoc]
        rfl
      · obtain ⟨t, ht⟩ := hk2
        exact ⟨t, by rw [List.cons_append, ht]⟩

theorem splitlinesChar_head_isPre (text : Str) (l0 : Str) (tl : List Str)
    (h : splitlinesChar text = l0 :: tl) : l0 <+: text := by
  cases text with
  | nil => simp [splitlinesChar] at h
  | cons c rest =>
    have h2 : splitlinesAux (c :: rest) [] = l0 :: tl := h
    obtain ⟨k, hk1, hk2⟩ := splitlinesAux_head_isPre (c :: rest) [] l0 tl h2
    rw [hk1]
    simpa using hk2

theorem univNL_cons_inv (s : Str) (c : Char) (t : Str)
    (h : univNL s = c :: t) (hc : ¬c = '\n') : ∃ s2, s = c :: s2 ∧ univNL s2 = t := by
  cases s with
  | nil => exact List.noConfusion h
  | cons a rest =>
    rw [univNL.eq_def] at h
    dsimp only at h
    by_cases ha : a = '\r'
    · rw [if_pos ha] at h
      cases rest with
      | nil =>
        injection h with e _
        exact absurd e.symm hc
      | cons d r2 =>
        dsimp only at h
        by_cases hd : d = '\n'
        · rw [if_pos hd] at h
          injection h with e _
          exact absurd e.symm hc
        · rw [if_neg hd] at h
          injection h with e _
          exact absurd e.symm hc
    · rw [if_neg ha] at h
      injection h with e h2
      exact ⟨rest, by rw [e], h2⟩

theorem text_head3_bytes (body : List Nat) (c1 c2 c3 : Char) (s3 : Str)
    (hlt : ∀ b, b ∈ body → b < 256)
    (h : univNL (body.map Char.ofNat) = c1 :: c2 :: c3 :: s3)
    (h1 : ¬c1 = '\n') (h2 : ¬c2 = '\n') (h3 : ¬c3 = '\n') :
    ∃ body2, body = c1.toNat :: c2.toNat :: c3.toNat :: body2 := by
  obtain ⟨m1, hm1, hu1⟩ := univNL_cons_inv _ _ _ h h1
  obtain ⟨m2, hm2, hu2⟩ := univNL_cons_inv _ _ _ hu1 h2
  rw [hm2] at hm1
  obtain ⟨m3, hm3, -⟩ := univNL_cons_inv _ _ _ hu2 h3
  rw [hm3] at hm1
  cases body with
  | nil => simp at hm1
  | cons b1 r1 =>
    rw [List.map_cons] at hm1
    injection hm1 with e1 hr1
    cases r1 with
    | nil => simp at hr1
    | cons b2 r2 =>
      rw [List.map_cons] at hr1
      injection hr1 with e2 hr2
      cases r2 with
      | nil => simp at hr2
      | cons b3 r3 =>
        rw [List.map_cons] at hr2
        injection hr2 with e3 _
        have hb1 : b1 = c1.toNat := by
          have hv := char_toNat_ofNat_of_lt b1 (hlt b1 (by simp))
          rw [e1] at hv
          exact hv.symm
        have hb2 : b2 = c2.toNat := by
          have hv := char_toNat_ofNat_of_lt b2 (hlt b2 (by simp))
          rw [e2] at hv
          exact hv.symm
        have hb3 : b3 = c3.toNat := by
          have hv := char_toNat_ofNat_of_lt b3 (hlt b3 (by simp))
          rw [e3] at hv
          exact hv.symm
        exact ⟨r3, by rw [hb1, hb2, hb3]⟩

theorem pipeline_head3 (target : FsPath) (hm : HeaderMap) (lines : List Str) (ft : Str)
    (c1 c2 c3 : Char) (ft3 : Str)
    (hsl : sortLines target hm lines = some ft)
    (hft : ft = c1 :: c2 :: c3 :: ft3)
    (h1 : ¬c1 = '\n') (h2 : ¬c2 = '\n') (h3 : ¬c3 = '\n') :
    ∃ l2 rest, lines = (c1 :: c2 :: c3 :: l2) :: rest := by
  have hfe := sortLines_eq_finalText target hm lines ft hsl
  rw [hft] at hfe
  unfold finalText at hfe
  rcases hR : rstrip (collapseNL (joinNL (newContent target hm lines)))
    with _ | ⟨a, _ | ⟨b, _ | ⟨d, Z⟩⟩⟩
  · rw [hR, List.nil_append] at hfe
    injection hfe with e1 _
    exact absurd e1 h1
  · rw [hR, List.cons_append, List.nil_append] at hfe
    injection hfe with e1 e2
    injection e2 with e3 _
    exact absurd e3 h2
  · rw [hR, List.cons_append, List.cons_append, List.nil_append] at hfe
    injection hfe with e1 e2
    injection e2 with e3 e4
    injection e4 with e5 _
    exact absurd e5 h3
  · rw [hR] at hfe
    simp only [List.cons_append] at hfe
    injection hfe with e1 e2
    injection e2 with e3 e4
    injection e4 with e5 _
    subst e1; subst e3; subst e5
    obtain ⟨t, htt, -⟩ := rstrip_decomp (collapseNL (joinNL (newContent target hm lines)))
    rw [hR] at htt
    have hY : collapseAux (joinNL (newContent target hm lines)) 0
        = c1 :: c2 :: c3 :: (Z ++ t) := htt
    obtain ⟨-, s1, hs1, hW1⟩ := collapseAux_head (joinNL (newContent target hm lines)) 0 c1 _ hY h1
    obtain ⟨-, s2, hs2, hW2⟩ := collapseAux_head s1 0 c2 _ hW1 h2
    obtain ⟨-, s3, hs3, -⟩ := collapseAux_head s2 0 c3 _ hW2 h3
    have hJ : joinNL (newContent target hm lines) = c1 :: c2 :: c3 :: s3 := by
      rw [hs1, hs2, hs3]
    cases hnce : newContent target hm lines with
    | nil =>
      rw [hnce] at hJ
      simp [joinNL] at hJ
    | cons l0 ncs =>
      rw [hnce] at hJ
      obtain ⟨T, hT, hTor⟩ := joinNL_cons_decomp l0 ncs
      rw [hT] at hJ
      rcases l0 with _ | ⟨x1, _ | ⟨x2, _ | ⟨x3, l2⟩⟩⟩
      · rw [List.nil_append] at hJ
        rcases hTor with hT0 | ⟨T2, hT2⟩
        · rw [hT0] at hJ
          exact List.noConfusion hJ
        · rw [hT2] at hJ
          injection hJ with e1 _
          exact absurd e1.symm h1
      · rw [List.cons_append, List.nil_append] at hJ
        injection hJ with e1 e2
        rcases hTor with hT0 | ⟨T2, hT2⟩
        · rw [hT0] at e2
          exact List.noConfusion e2
        · rw [hT2] at e2
          injection e2 with e3 _
          exact absurd e3.symm h2
      · simp only [List.cons_append, List.nil_append] at hJ
        injection hJ with e1 e2
        injection e2 with e3 e4
        rcases hTor with hT0 | ⟨T2, hT2⟩
        · rw [hT0] at e4
          exact List.noConfusion e4
        · rw [hT2] at e4
          injection e4 with e5 _
          exact absurd e5.symm h3
      · simp only [List.cons_append] at hJ
        injection hJ with e1 e2
        injection e2 with e3 e4
        injection e4 with e5 _
        rw [e1, e3, e5] at hnce
        have hnc2 : dropTrailingBlank (splitIncludes lines).other_top ++ [[]] ++
            emitGroups ((splitIncludes lines).include_lines.foldl (classifyLine target hm) {}) ++
            dropLeadingBlank (splitIncludes lines).other_bottom
              = (c1 :: c2 :: c3 :: l2) :: ncs := hnce
        cases hdt : dropTrailingBlank (splitIncludes lines).other_top with
        | nil =>
          rw [hdt] at hnc2
          simp only [List.nil_append, List.cons_append] at hnc2
          injection hnc2 with e0 _
          exact List.noConfusion e0
        | cons x xs =>
          rw [hdt] at hnc2
          simp only [List.cons_append] at hnc2
          injection hnc2 with e0 _
          have hpre3 : dropTrailingBlank (splitIncludes lines).other_top <+: lines :=
            (dropTrailingBlank_isPre _).trans (splitIncludes_top_isPre lines)
          rw [hdt] at hpre3
          obtain ⟨u, hu⟩ := hpre3
          refine ⟨l2, xs ++ u, ?_⟩
          rw [← hu, e0]
          rfl

theorem getLast?_append_right (l1 l2 : List Nat) (x : Nat) (h : l2.getLast? = some x) :
    (l1 ++ l2).getLast? = some x := by
  cases l2 with
  | nil => exact Option.noConfusion h
  | cons a t =>
    rw [List.getLast?_append_cons]
    exact h

/-- C6: for every input whose bytes are genuine bytes (each below 256) and
that the sorter rewrites, the rewritten bytes reproduce the input's
encoding and line-ending convention: the output starts with the UTF-8 BOM
exactly when the input does; if the input contains a CRLF sequence, every
newline of the output is a CRLF pair; otherwise the output contains no CR
byte at all; and the output ends with a newline byte. -/
theorem encoding_newline_preserved (target : FsPath) (hm : HeaderMap) (bs out : List Nat)
    (hlt : ∀ b, b ∈ bs → b < 256)
    (h : sortFileBytes target hm bs = some out) :
    bomBytes.isPrefixOf out = hasBom bs ∧
    (hasCRLF bs = true → crlfOnly out = true) ∧
    (hasCRLF bs = false → ∀ b2, b2 ∈ out → ¬b2 = 13) ∧
    out.getLast? = some 10 := by
  dsimp only [sortFileBytes] at h
  rcases hq : sortLines target hm
      (splitlinesChar (univNL ((if hasBom bs then bs.drop 3 else bs).map Char.ofNat)))
    with _ | ft
  · rw [hq] at h
    exact Option.noConfusion h
  · rw [hq] at h
    injection h with hout
    have hfe := sortLines_eq_finalText _ _ _ _ hq
    have hnocr : ∀ c, c ∈ ft → ¬c = '\r' := by
      intro c hcc
      rw [hfe] at hcc
      exact pipeline_ft_no_cr target hm _ c hcc
    have h10 : (encodeText (hasCRLF bs) ft).getLast? = some 10 := by
      rw [hfe]
      unfold finalText
      exact encodeText_last _ _
    refine ⟨?_, ?_, ?_, ?_⟩
    · cases hb : hasBom bs with
      | false =>
        rw [← hout, hb, if_neg Bool.false_ne_true, List.nil_append]
        rw [Bool.eq_false_iff]
        intro hpre
        rw [List.isPrefixOf_iff_prefix] at hpre
        obtain ⟨w, hw⟩ := hpre
        have henc : encodeText (hasCRLF bs) ft = 239 :: 187 :: 191 :: w := by
          rw [← hw]
          rfl
        obtain ⟨c1, ft1, hf1, ht1, hn1, he1⟩ :=
          encodeText_cons_inv _ _ _ _ henc (by decide) (by decide)
        obtain ⟨c2, ft2, hf2, ht2, hn2, he2⟩ :=
          encodeText_cons_inv _ _ _ _ he1 (by decide) (by decide)
        obtain ⟨c3, ft3, hf3, ht3, hn3, he3⟩ :=
          encodeText_cons_inv _ _ _ _ he2 (by decide) (by decide)
        have hft : ft = c1 :: c2 :: c3 :: ft3 := by rw [hf1, hf2, hf3]
        rw [hb, if_neg Bool.false_ne_true] at hq
        obtain ⟨l2, rest2, hlines⟩ :=
          pipeline_head3 target hm _ ft c1 c2 c3 ft3 hq hft hn1 hn2 hn3
        obtain ⟨u, hu⟩ := splitlinesChar_head_isPre _ _ _ hlines
        have htext : univNL (bs.map Char.ofNat) = c1 :: c2 :: c3 :: (l2 ++ u) := by
          rw [← hu]
          rfl
        obtain ⟨body2, hbody⟩ := text_head3_bytes bs c1 c2 c3 _ hlt htext hn1 hn2 hn3
        rw [ht1, ht2, ht3] at hbody
        have hcontra : hasBom bs = true := by
          rw [hbody]
          simp [hasBom, bomBytes, List.isPrefixOf]
        rw [hb] at hcontra
        exact Bool.noConfusion hcontra
      | true =>
        rw [← hout, hb, if_pos rfl, List.isPrefixOf_iff_prefix]
        exact List.prefix_append _ _
    · intro hcr
      rw [← hout, hcr]
      cases hb : hasBom bs with
      | false =>
        rw [if_neg Bool.false_ne_true, List.nil_append]
        exact encodeText_crlfOnly ft hnocr
      | true =>
        rw [if_pos rfl, crlfOnly_bom]
        exact encodeText_crlfOnly ft hnocr
    · intro hcr b2 hb2
      rw [← hout, hcr] at hb2
      cases hb : hasBom bs with
      | false =>
        rw [hb, if_neg Bool.false_ne_true, List.nil_append] at hb2
        exact encodeText_no13 ft hnocr b2 hb2
      | true =>
        rw [hb, if_pos rfl] at hb2
        rcases List.mem_append.mp hb2 with hx | hx
        · intro he
          rw [he] at hx
          exact absurd hx (by decide)
        · exact encodeText_no13 ft hnocr b2 hx
    · rw [← hout]
      exact getLast?_append_right _ _ _ h10

/-- A concrete BOM-marked, CRLF input file for C6. -/
def c6Bytes : List Nat :=
  bomBytes ++ (str "// t\r\n\r\n#include \"b.h\"\r\n#include \"a.h\"\r\nint x;\r\n").map Char.toNat

/-- The sorter's output on `c6Bytes`: still BOM-marked and CRLF. -/
def c6Out : List Nat :=
  bomBytes ++ (str "// t\r\n\r\n#include \"a.h\"\r\n#include \"b.h\"\r\n\r\nint x;\r\n").map Char.toNat

/-- Witness for C6 at a concrete BOM-marked CRLF input. -/
theorem encoding_newline_preserved_witness :
    (∀ b, b ∈ c6Bytes → b < 256) ∧
    sortFileBytes ⟨[str "proj", str "m.cpp"]⟩ [] c6Bytes = some c6Out ∧
    (bomBytes.isPrefixOf c6Out = hasBom c6Bytes ∧
     (hasCRLF c6Bytes = true → crlfOnly c6Out = true) ∧
     (hasCRLF c6Bytes = false → ∀ b2, b2 ∈ c6Out → ¬b2 = 13) ∧
     c6Out.getLast? = some 10) :=
  ⟨by decide, by decide,
   encoding_newline_preserved ⟨[str "proj", str "m.cpp"]⟩ [] c6Bytes c6Out
     (by decide) (by decide)⟩
